import Mathlib

/-!
Verification of the kibank container codec (kibank_write.py / kibank_extract.py).

Paths (Python `str`) are modelled as `List Char`; byte strings (`bytes`) as
`List Nat` (each element a byte value).  Machine integers (`u64`) are `Nat`
with explicit `% 2^64` truncation where the 64-bit width matters.  Fallible
code returns `Except BankError`.
-/

/-- The error kinds raised by the codec (Python raises `ValueError` / `IOError`
with distinct messages; we model each distinct message as a constructor). -/
inductive BankError where
  /-- "FILE_ID mismatch: not a Kilohearts .bank (or unsupported)" -/
  | notABank
  /-- "CORRUPTION_CHECK_BYTES mismatch: file may be corrupted" -/
  | corrupted
  /-- "FORMAT_VERSION mismatch: unsupported bank version" -/
  | badVersion
  /-- `IOError("Unexpected EOF ...")`: a short read. -/
  | eof
  /-- "Name offset out of bounds in filename block" -/
  | boundsErr
  /-- "Overlapping data ranges: a overlaps b" (carries both entry names). -/
  | overlap (a b : List Nat)
  /-- "Refusing path traversal ..." from `sanitize_bank_rel` / `safe_join`. -/
  | traversal
  /-- A `KeyError` on the writer's `file_map` lookup (unreachable in practice). -/
  | keyError
  deriving DecidableEq, Repr

/-! ## Path layer (sanitize_bank_rel / safe_join, segment logic) -/

/-- `rel.replace("\\", "/")`: normalize backslashes to forward slashes. -/
def normSlashes (s : List Char) : List Char :=
  s.map (fun c => if c = '\\' then '/' else c)

/-- `.lstrip("/")`: strip leading forward slashes. -/
def dropSlashes (s : List Char) : List Char :=
  s.dropWhile (fun c => c = '/')

/-- Python `str.split(sep)` for a one-character separator: always returns at
least one (possibly empty) segment, empty segments between adjacent
separators are kept. -/
def splitOnChar (c : Char) : List Char → List (List Char)
  | [] => [[]]
  | x :: xs =>
    if x = c then [] :: splitOnChar c xs
    else
      match splitOnChar c xs with
      | [] => [[x]]
      | p :: ps => (x :: p) :: ps

/-- The `for p in rel.split("/")` loop body shared by `sanitize_bank_rel` and
`safe_join`: drop empty and "." segments, fail on "..", keep the rest. -/
def sanitizeSegs : List (List Char) → Except BankError (List (List Char))
  | [] => .ok []
  | p :: ps =>
    if p = [] ∨ p = ['.'] then sanitizeSegs ps
    else if p = ['.', '.'] then .error .traversal
    else do
      let rest ← sanitizeSegs ps
      .ok (p :: rest)

/-- "/".join(parts). -/
def joinParts : List (List Char) → List Char
  | [] => []
  | [p] => p
  | p :: ps => p ++ '/' :: joinParts ps

/-- The normalized segment list of a bank-internal path: normalize
backslashes, strip leading slashes, split on "/", filter and validate. -/
def pathSegs (rel : List Char) : Except BankError (List (List Char)) :=
  sanitizeSegs (splitOnChar '/' (dropSlashes (normSlashes rel)))

/-- `sanitize_bank_rel` from kibank_write.py. -/
def sanitize_bank_rel (rel : List Char) : Except BankError (List Char) := do
  let parts ← pathSegs rel
  .ok (joinParts parts)

/-- `safe_join` from kibank_extract.py, segment level: it computes the same
normalized segment list (identical loop) and joins it onto `base`; we return
the segment list that gets joined.  The final `Path.resolve` containment
double-check operates on the real filesystem (symlinks, canonicalization) and
is outside this byte-level model; every path accepted here is joined under
`base` as these segments. -/
def safe_join (rel : List Char) : Except BankError (List (List Char)) :=
  pathSegs rel

/-! ## Byte layer -/

/-- `struct.pack("<Q", n)`: 8 little-endian base-256 digits of `n % 2^64`. -/
def u64le (n : Nat) : List Nat :=
  [n % 256, n / 256 % 256, n / 65536 % 256, n / 16777216 % 256,
   n / 4294967296 % 256, n / 1099511627776 % 256,
   n / 281474976710656 % 256, n / 72057594037927936 % 256]

/-- `struct.unpack("<Q", b)`: little-endian base-256 value of a byte list. -/
def decU64 (l : List Nat) : Nat :=
  l.foldr (fun b acc => b + 256 * acc) 0

/-- UTF-8 encoding of one character (what Python's `str.encode("utf-8")`
produces per code point; Lean `Char` carries a Unicode scalar value). -/
def utf8EncodeChar (c : Char) : List Nat :=
  let n := c.toNat
  if n < 128 then [n]
  else if n < 2048 then [192 + n / 64, 128 + n % 64]
  else if n < 65536 then [224 + n / 4096, 128 + n / 64 % 64, 128 + n % 64]
  else [240 + n / 262144, 128 + n / 4096 % 64, 128 + n / 64 % 64, 128 + n % 64]

/-- UTF-8 encoding of a path string. -/
def utf8Encode (s : List Char) : List Nat :=
  s.flatMap utf8EncodeChar

/-- FILE_ID = bytes([137, ord("k"), ord("H"), ord("s")]). -/
def FILE_ID_B : List Nat := [137, 107, 72, 115]

/-- CORRUPTION_CHECK_BYTES = bytes([0x0D, 0x0A, 0x1A, 0x0A]). -/
def CORRUPTION_B : List Nat := [13, 10, 26, 10]

/-- FORMAT_VERSION = b"Bank0001". -/
def VERSION_B : List Nat := [66, 97, 110, 107, 48, 48, 48, 49]

/-! ## Container Reader (kibank_extract.py) -/

/-- The `Location` dataclass: one fixed-size location record. -/
structure Location where
  name_off : Nat
  data_off : Nat
  data_size : Nat
  deriving DecidableEq, Repr

/-- `Location.data_end`. -/
def Location.data_end (l : Location) : Nat := l.data_off + l.data_size

/-- The `BankEntry` dataclass: a resolved name plus its location. -/
structure BankEntry where
  name_bytes : List Nat
  loc : Location
  deriving DecidableEq, Repr

/-- `BankEntry.is_dir`: data_size == 0. -/
def BankEntry.is_dir (e : BankEntry) : Bool := e.loc.data_size == 0

/-- `BankEntry.is_file`: data_size != 0. -/
def BankEntry.is_file (e : BankEntry) : Bool := e.loc.data_size != 0

/-- `BankReader._read_exact(n)`: consume exactly `n` bytes from the stream
(modelled as the unread suffix), failing on a short read. -/
def readExact (n : Nat) (bs : List Nat) : Except BankError (List Nat × List Nat) :=
  if n ≤ bs.length then .ok (bs.take n, bs.drop n) else .error .eof

/-- `BankReader._read_u64`. -/
def readU64 (bs : List Nat) : Except BankError (Nat × List Nat) := do
  let (b, rest) ← readExact 8 bs
  .ok (decU64 b, rest)

/-- The location-table loop: read `n` 24-byte records
`(name_off, data_off, data_size)`, each three `<Q` fields. -/
def readLocations : Nat → List Nat → Except BankError (List Location × List Nat)
  | 0, bs => .ok ([], bs)
  | n + 1, bs => do
    let (b, rest) ← readExact 24 bs
    let loc : Location := ⟨decU64 (b.take 8), decU64 ((b.drop 8).take 8), decU64 (b.drop 16)⟩
    let (ls, rest2) ← readLocations n rest
    .ok (loc :: ls, rest2)

/-- `file_name_block.find(b"\x00", start)`: index of the first NUL byte at or
after `start`, if any. -/
def findNul (blk : List Nat) (start : Nat) : Option Nat :=
  match (blk.drop start).findIdx? (fun b => b == 0) with
  | some k => some (start + k)
  | none => none

/-- Name resolution for one location: bounds-check `name_off` against the
filename block (whose length equals the declared `file_name_block_length`),
then slice up to the first NUL or the block end. -/
def resolveName (blk : List Nat) (off : Nat) : Except BankError (List Nat) :=
  if off ≥ blk.length then .error .boundsErr
  else
    let stop := match findNul blk off with
      | some i => i
      | none => blk.length
    .ok ((blk.take stop).drop off)

/-- The name-resolution loop over all locations, in on-disk order. -/
def resolveAll (blk : List Nat) : List Location → Except BankError (List BankEntry)
  | [] => .ok []
  | l :: ls => do
    let nm ← resolveName blk l.name_off
    let es ← resolveAll blk ls
    .ok (⟨nm, l⟩ :: es)

/-- Stable insertion into a list sorted by the boolean preorder `le`:
the new element goes before the first element not strictly smaller. -/
def insertLe (le : α → α → Bool) (x : α) : List α → List α
  | [] => [x]
  | y :: ys => if le x y then x :: y :: ys else y :: insertLe le x ys

/-- Stable sort by the boolean preorder `le` (Python's `sorted` is a stable
sort; any stable sort computes the same result). -/
def sortStable (le : α → α → Bool) : List α → List α
  | [] => []
  | x :: xs => insertLe le x (sortStable le xs)

/-- Sort key of the overlap check: `key=lambda e: e.loc.data_off`. -/
def leOff (a b : BankEntry) : Bool := decide (a.loc.data_off ≤ b.loc.data_off)

/-- The adjacent-pair walk of the overlap check. -/
def checkAdj : List BankEntry → Except BankError Unit
  | a :: b :: rest =>
    if a.loc.data_end > b.loc.data_off then .error (.overlap a.name_bytes b.name_bytes)
    else checkAdj (b :: rest)
  | _ => .ok ()

/-- The overlap/corruption check: filter file entries, sort a copy by
`data_off`, verify adjacent pairs. -/
def overlapCheck (es : List BankEntry) : Except BankError Unit :=
  checkAdj (sortStable leOff (es.filter (fun e => e.is_file)))

/-- `BankReader._parse` up to (and excluding) the overlap check: header
fields, location count, location records, filename block, name resolution. -/
def parseEntriesPre (bs : List Nat) : Except BankError (List BankEntry) := do
  let (m, r1) ← readExact 4 bs
  if m ≠ FILE_ID_B then throw .notABank
  let (cc, r2) ← readExact 4 r1
  if cc ≠ CORRUPTION_B then throw .corrupted
  let (v, r3) ← readExact 8 r2
  if v ≠ VERSION_B then throw .badVersion
  let (count, r4) ← readU64 r3
  let (locs, r5) ← readLocations count r4
  let (blkLen, r6) ← readU64 r5
  let (blk, _) ← readExact blkLen r6
  resolveAll blk locs

/-- `BankReader._parse`: parse, then run the overlap check, returning the
entries in on-disk location order. -/
def parseBank (bs : List Nat) : Except BankError (List BankEntry) := do
  let es ← parseEntriesPre bs
  overlapCheck es
  .ok es

/-- `BankReader.read_file_bytes`: empty bytes for a directory, otherwise seek
to `data_off` and read exactly `data_size` bytes. -/
def readFileBytes (bs : List Nat) (e : BankEntry) : Except BankError (List Nat) :=
  if e.is_file then
    match readExact e.loc.data_size (bs.drop e.loc.data_off) with
    | .ok p => .ok p.1
    | .error er => .error er
  else .ok []

/-! ## Container Writer (kibank_write.py) -/

/-- The `FileEntry` dataclass.  `bytes` is the byte sequence the entry's data
source (`open_stream`: the backing file's content, or `virtual_bytes`)
yields; `size` is the separately declared size used for the location table
and the copy loop. -/
structure FileEntry where
  rel : List Char
  size : Nat
  bytes : List Nat
  deriving DecidableEq, Repr

/-- Python's `str.lower()` restricted to the ASCII range: this model folds
only A-Z. The real `str.lower()` also lowers non-ASCII letters (Σ to σ, À to
à), so `lowerChar`/`lowerPath` agree with the writer's sort key
`f.rel_posix.lower()` exactly when every path character is ASCII; statements
whose truth depends on this sort key therefore carry an explicit ASCII
hypothesis on the input paths. -/
def lowerChar (c : Char) : Char :=
  if 'A' ≤ c ∧ c ≤ 'Z' then Char.ofNat (c.toNat + 32) else c

/-- Lowercased path, the writer's case-insensitive sort key. -/
def lowerPath (p : List Char) : List Char := p.map lowerChar

/-- Python string `<`: lexicographic comparison by code point. -/
def lexLt : List Char → List Char → Bool
  | [], [] => false
  | [], _ :: _ => true
  | _ :: _, [] => false
  | a :: as, b :: bs => if a < b then true else if b < a then false else lexLt as bs

/-- Python string `<=` (total preorder used for ascending sorts). -/
def lexLe (a b : List Char) : Bool := ! lexLt b a

/-- The writer's file ordering: case-insensitive (lowercased) path. -/
def leLower (f g : FileEntry) : Bool := lexLe (lowerPath f.rel) (lowerPath g.rel)

/-- Insertion into a strictly sorted duplicate-free list, keeping it so. -/
def insertDedup (x : List Char) : List (List Char) → List (List Char)
  | [] => [x]
  | y :: ys =>
    if lexLt x y then x :: y :: ys
    else if x = y then y :: ys
    else y :: insertDedup x ys

/-- `sorted(set(l))`: the sorted list of the distinct elements of `l`. -/
def sortedDedup (l : List (List Char)) : List (List Char) :=
  l.foldr insertDedup []

/-- The ancestor-directory walk of `collect_tree`: for a sanitized relative
path with segments `segs`, Python walks `Path(rel).parent` upwards, adding
every proper nonempty prefix of the segment list. -/
def ancestorPrefixes (segs : List (List Char)) : List (List Char) :=
  (List.range (segs.length - 1)).map (fun k => joinParts (segs.take (k + 1)))

/-- One iteration of the `collect_tree` walk loop: sanitize the relative
path, compute its ancestor directories, build the `FileEntry` (whose `size`
is `p.stat().st_size`, i.e. the length of the file's content). -/
def collectItem (pc : List Char × List Nat) :
    Except BankError (List (List Char) × FileEntry) := do
  let segs ← pathSegs pc.1
  .ok (ancestorPrefixes segs, ⟨joinParts segs, pc.2.length, pc.2⟩)

/-- `collect_tree`: the recursive walk is modelled as the list of
`(relative path, content)` pairs the filesystem enumerator yields; the
directory set is sorted and deduplicated, the files sorted by lowercased
path. -/
def collect_tree (inputs : List (List Char × List Nat)) :
    Except BankError (List (List Char) × List FileEntry) := do
  let results ← inputs.mapM collectItem
  .ok (sortedDedup (results.flatMap (fun r => r.1)),
       sortStable leLower (results.map (fun r => r.2)))

/-- METADATA_FILE_NAME = "index.json" (equal to its own lowercasing). -/
def indexJsonChars : List Char :=
  ['i', 'n', 'd', 'e', 'x', '.', 'j', 's', 'o', 'n']

/-- `ensure_metadata_and_background`: add a generated root `index.json`
(opaque metadata bytes `meta`) unless a file with that lowercased name
exists, then re-sort.  The background branch probes the input directory for
`background.png/jpg/jpeg`; any such root file is already in the walked file
list, where its lowercased name makes the branch skip it, so it never adds
an entry under this model's assumption that `files` is the complete walk. -/
def ensure_metadata (files : List FileEntry) (meta : List Nat) : List FileEntry :=
  let files2 :=
    if files.any (fun f => lowerPath f.rel == indexJsonChars) then files
    else files ++ [⟨indexJsonChars, meta.length, meta⟩]
  sortStable leLower files2

/-- The writer's location-name table: `(rel, is_dir)` pairs, all directories
first, then all files. -/
def locNames (dirs : List (List Char)) (fes : List FileEntry) : List (List Char × Bool) :=
  dirs.map (fun d => (d, true)) ++ fes.map (fun f => (f.rel, false))

/-- The filename-block loop: re-sanitize each name, append its UTF-8 bytes
plus one NUL, recording each name's starting offset (`cur` is the running
block length). -/
def buildNameBlockAux : List (List Char × Bool) → Nat → Except BankError (List Nat × List Nat)
  | [], _ => .ok ([], [])
  | (rel, _) :: rest, cur => do
    let rn ← sanitize_bank_rel rel
    let (offs, blk) ← buildNameBlockAux rest (cur + (utf8Encode rn ++ [0]).length)
    .ok (cur :: offs, (utf8Encode rn ++ [0]) ++ blk)

/-- `file_map = {f.rel_posix: f for f in file_entries}`: a Python dict
comprehension keeps the last entry for a duplicated key. -/
def lookupRel (fes : List FileEntry) (rel : List Char) : Option FileEntry :=
  (fes.filter (fun f => f.rel == rel)).getLast?

/-- The location-computation loop: walk the zipped `(name, is_dir) × name_off`
pairs; directories get `(name_off, 0, 0)`, files get the running data cursor
and their mapped size. -/
def computeLocs (fes : List FileEntry) :
    List ((List Char × Bool) × Nat) → Nat → Except BankError (List (Nat × Nat × Nat))
  | [], _ => .ok []
  | ((rel, isDir), noff) :: rest, cur =>
    if isDir then do
      let ls ← computeLocs fes rest cur
      .ok ((noff, 0, 0) :: ls)
    else
      match lookupRel fes rel with
      | none => .error .keyError
      | some fe => do
        let ls ← computeLocs fes rest (cur + fe.size)
        .ok ((noff, cur, fe.size) :: ls)

/-- The streaming copy loop body, structurally fueled: each successful
iteration consumes at least one byte of `remaining`, so fuel `remaining`
suffices and the fuel-exhausted branch (reachable only with `r = 0`) agrees
with the loop's exit condition. -/
def copyAux : Nat → List Nat → Nat → Except BankError (List Nat)
  | 0, _, r => if r = 0 then .ok [] else .error .eof
  | fuel + 1, src, r =>
    if r = 0 then .ok []
    else
      let chunk := src.take (min 1048576 r)
      if chunk.length = 0 then .error .eof
      else
        match copyAux fuel (src.drop chunk.length) (r - chunk.length) with
        | .ok rest => .ok (chunk ++ rest)
        | .error er => .error er

/-- The writer's per-file copy loop: stream `remaining` bytes from the
source in chunks of at most 1 MiB, failing on a premature end of stream. -/
def copyLoop (src : List Nat) (remaining : Nat) : Except BankError (List Nat) :=
  copyAux remaining src remaining

/-- The data-blob loop: concatenated payloads of the file locations, in
table order, each streamed through the copy loop. -/
def dataRegion (fes : List FileEntry) : List (List Char × Bool) → Except BankError (List Nat)
  | [] => .ok []
  | (rel, isDir) :: rest =>
    if isDir then dataRegion fes rest
    else
      match lookupRel fes rel with
      | none => .error .keyError
      | some fe => do
        let d ← copyLoop fe.bytes fe.size
        let ds ← dataRegion fes rest
        .ok (d ++ ds)

/-- `LOC.pack`: serialize one location record as three `<Q` fields. -/
def packLoc (l : Nat × Nat × Nat) : List Nat :=
  u64le l.1 ++ u64le l.2.1 ++ u64le l.2.2

/-- `write_bank`, serialization core (everything after
`ensure_metadata_and_background`): build the filename block, compute the
data start `24 + 24*N + 8 + L`, compute the location table, and emit
header, count, table, block length, block, and payloads. -/
def write_bank (dirs : List (List Char)) (fes : List FileEntry) :
    Except BankError (List Nat) := do
  let names := locNames dirs fes
  let (offs, blk) ← buildNameBlockAux names 0
  let n := names.length
  let dstart := 24 + n * 24 + 8 + blk.length
  let locs ← computeLocs fes (names.zip offs) dstart
  let data ← dataRegion fes names
  .ok (FILE_ID_B ++ CORRUPTION_B ++ VERSION_B ++ u64le n ++
       locs.flatMap packLoc ++ u64le blk.length ++ blk ++ data)

/-- The full writer pipeline on a walked tree: collect, ensure metadata,
serialize. -/
def writeBankFromTree (inputs : List (List Char × List Nat)) (meta : List Nat) :
    Except BankError (List Nat) := do
  let (ds, fs) ← collect_tree inputs
  write_bank ds (ensure_metadata fs meta)

/-- Sum of the declared sizes of a file-entry list. -/
def sumSizes (fes : List FileEntry) : Nat := (fes.map (fun f => f.size)).sum

/-- Two entries' half-open payload ranges `[data_off, data_off+data_size)`
are disjoint (one ends at or before the other starts). -/
def rangesDisjoint (a b : BankEntry) : Prop :=
  a.loc.data_end ≤ b.loc.data_off ∨ b.loc.data_end ≤ a.loc.data_off

/-- Some two file entries of `es` (at distinct positions) have intersecting
payload ranges. -/
def hasOverlapPair (es : List BankEntry) : Prop :=
  ∃ (i : Fin es.length) (j : Fin es.length), i ≠ j ∧
    (es.get i).is_file = true ∧ (es.get j).is_file = true ∧
    (es.get i).loc.data_off < (es.get j).loc.data_end ∧
    (es.get j).loc.data_off < (es.get i).loc.data_end

/-- A path contains a `..` segment (after backslash normalization and
leading-slash stripping). -/
def hasDotDotSeg (s : List Char) : Prop :=
  ['.', '.'] ∈ splitOnChar '/' (dropSlashes (normSlashes s))

deriving instance DecidableEq for Except

/-- Specification helper: the filename-block bytes implied by a list of
(already sanitized) names — each name's UTF-8 bytes followed by one NUL. -/
def blkOf (rns : List (List Char)) : List Nat :=
  rns.flatMap (fun rn => utf8Encode rn ++ [0])

/-- Specification helper: the running name offsets implied by a list of
(already sanitized) names, starting at `c`. -/
def offsOf (c : Nat) : List (List Char) → List Nat
  | [] => []
  | rn :: rest => c :: offsOf (c + (utf8Encode rn ++ [0]).length) rest

/-- Specification helper: the entries the Reader resolves for the writer's
directory rows (offset paired with each directory name, zero range). -/
def dirEntriesSpec (dirs : List (List Char)) (offs : List Nat) : List BankEntry :=
  (dirs.zip offs).map (fun p => ⟨utf8Encode p.1, ⟨p.2, 0, 0⟩⟩)

/-- Specification helper: the entries the Reader resolves for the writer's
file rows — contiguous data offsets starting at `cur`. -/
def fileEntriesSpec : List FileEntry → List Nat → Nat → List BankEntry
  | f :: fs, o :: os, cur =>
    ⟨utf8Encode f.rel, ⟨o, cur, f.size⟩⟩ :: fileEntriesSpec fs os (cur + f.size)
  | _, _, _ => []

/-- Specification helper: the location tuples the writer computes for its
file rows — running name offsets paired with contiguous data offsets. -/
def fileLocsSpec : List FileEntry → List Nat → Nat → List (Nat × Nat × Nat)
  | f :: fs, o :: os, cur => (o, cur, f.size) :: fileLocsSpec fs os (cur + f.size)
  | _, _, _ => []

/-- A location-record list lays its data out contiguously from `cur`: the
first record's data offset is `cur` and each subsequent record's data offset
is the previous one's data offset plus the previous one's data size. -/
def contiguousFrom (cur : Nat) : List (Nat × Nat × Nat) → Prop
  | [] => True
  | (_, o, s) :: rest => o = cur ∧ contiguousFrom (cur + s) rest

/-- A concrete 58-byte container: valid header, one location record
`(name_off 0, data_off 100, data_size 1)`, filename block "a\x00".  Its
single declared payload range `[100, 101)` lies past the end of the file. -/
def bank58 : List Nat :=
  FILE_ID_B ++ CORRUPTION_B ++ VERSION_B ++ u64le 1 ++
    (u64le 0 ++ u64le 100 ++ u64le 1) ++ u64le 2 ++ [97, 0]

/-- The entry `bank58` parses to. -/
def entry58 : BankEntry := ⟨[97], ⟨0, 100, 1⟩⟩

/-! # Theorems -/

/-! ## Monad plumbing for `Except` -/

theorem except_bind_ok {α β ε : Type} (a : α) (f : α → Except ε β) :
    (Except.ok a >>= f) = f a := rfl

theorem except_bind_err {α β ε : Type} (e : ε) (f : α → Except ε β) :
    ((Except.error e : Except ε α) >>= f) = .error e := rfl

theorem joinParts_cons {p q : List Char} {qs : List (List Char)} :
    joinParts (p :: q :: qs) = p ++ '/' :: joinParts (q :: qs) := rfl

/-! ## Path layer lemmas -/

theorem mem_splitOnChar_not_sep {c : Char} {s : List Char} :
    ∀ p ∈ splitOnChar c s, c ∉ p := by
  induction s with
  | nil => intro p hp; simp [splitOnChar] at hp; simp [hp]
  | cons x xs ih =>
    intro p hp
    by_cases hx : x = c
    · simp [splitOnChar, hx] at hp
      rcases hp with h | h
      · simp [h]
      · exact ih p h
    · simp only [splitOnChar, if_neg hx] at hp
      rcases hsp : splitOnChar c xs with _ | ⟨q, qs⟩
      · rw [hsp] at hp; simp at hp
        subst hp
        intro hmem
        simp at hmem
        exact hx hmem.symm
      · rw [hsp] at hp
        simp at hp
        rcases hp with h | h
        · subst h
          intro hmem
          simp at hmem
          rcases hmem with h' | h'
          · exact hx h'.symm
          · exact ih q (by simp [hsp]) h'
        · exact ih p (by simp [hsp, h])

theorem chars_of_splitOnChar {c : Char} {s : List Char} :
    ∀ p ∈ splitOnChar c s, ∀ x ∈ p, x ∈ s := by
  induction s with
  | nil => intro p hp; simp [splitOnChar] at hp; simp [hp]
  | cons y ys ih =>
    intro p hp x hx
    by_cases hy : y = c
    · simp [splitOnChar, hy] at hp
      rcases hp with h | h
      · simp [h] at hx
      · exact List.mem_cons_of_mem _ (ih p h x hx)
    · simp only [splitOnChar, if_neg hy] at hp
      rcases hsp : splitOnChar c ys with _ | ⟨q, qs⟩
      · rw [hsp] at hp; simp at hp
        subst hp; simp at hx; simp [hx]
      · rw [hsp] at hp
        simp at hp
        rcases hp with h | h
        · subst h
          simp at hx
          rcases hx with h' | h'
          · simp [h']
          · exact List.mem_cons_of_mem _ (ih q (by simp [hsp]) x h')
        · exact List.mem_cons_of_mem _ (ih p (by simp [hsp, h]) x hx)

theorem splitOnChar_ne_nil {c : Char} {s : List Char} : splitOnChar c s ≠ [] := by
  induction s with
  | nil => simp [splitOnChar]
  | cons x xs ih =>
    by_cases hx : x = c
    · simp [splitOnChar, hx]
    · simp only [splitOnChar, if_neg hx]
      rcases hsp : splitOnChar c xs with _ | ⟨q, qs⟩ <;> simp

theorem sanitizeSegs_error_iff {ps : List (List Char)} :
    sanitizeSegs ps = .error .traversal ↔ ['.', '.'] ∈ ps := by
  induction ps with
  | nil => simp [sanitizeSegs]
  | cons p ps ih =>
    by_cases h1 : p = [] ∨ p = ['.']
    · have hne : p ≠ ['.', '.'] := by rcases h1 with h | h <;> simp [h]
      simp only [sanitizeSegs, if_pos h1]
      rw [ih]
      simp [List.mem_cons, hne]
      intro h'; exact absurd h'.symm hne
    · by_cases h2 : p = ['.', '.']
      · simp [sanitizeSegs, if_neg h1, h2]
      · simp only [sanitizeSegs, if_neg h1, if_neg h2]
        constructor
        · intro h
          rcases hs : sanitizeSegs ps with e | v
          · rw [hs, except_bind_err] at h
            injection h with h
            subst h
            exact List.mem_cons_of_mem _ (ih.mp hs)
          · rw [hs, except_bind_ok] at h
            exact absurd h (by simp)
        · intro h
          rcases List.mem_cons.mp h with h' | h'
          · exact absurd h'.symm h2
          · rw [ih.mpr h', except_bind_err]

theorem sanitizeSegs_ok_mem {ps qs : List (List Char)} (h : sanitizeSegs ps = .ok qs) :
    ∀ q ∈ qs, q ∈ ps ∧ q ≠ [] ∧ q ≠ ['.'] ∧ q ≠ ['.', '.'] := by
  induction ps generalizing qs with
  | nil =>
    simp [sanitizeSegs] at h
    subst h; simp
  | cons p ps ih =>
    by_cases h1 : p = [] ∨ p = ['.']
    · rw [sanitizeSegs, if_pos h1] at h
      intro q hq
      have := ih h q hq
      exact ⟨List.mem_cons_of_mem _ this.1, this.2⟩
    · by_cases h2 : p = ['.', '.']
      · rw [sanitizeSegs, if_neg h1, if_pos h2] at h
        simp at h
      · rw [sanitizeSegs, if_neg h1, if_neg h2] at h
        rcases hs : sanitizeSegs ps with e | v
        · rw [hs, except_bind_err] at h; exact absurd h (by simp)
        · rw [hs, except_bind_ok] at h
          injection h with h
          subst h
          intro q hq
          rcases List.mem_cons.mp hq with h' | h'
          · subst h'
            refine ⟨List.mem_cons_self _ _, ?_, ?_, h2⟩
            · intro hc; exact h1 (Or.inl hc)
            · intro hc; exact h1 (Or.inr hc)
          · have := ih hs q h'
            exact ⟨List.mem_cons_of_mem _ this.1, this.2⟩

theorem sanitizeSegs_fixed {ps : List (List Char)}
    (h : ∀ p ∈ ps, p ≠ [] ∧ p ≠ ['.'] ∧ p ≠ ['.', '.']) :
    sanitizeSegs ps = .ok ps := by
  induction ps with
  | nil => simp [sanitizeSegs]
  | cons p ps ih =>
    have hp := h p (List.mem_cons_self _ _)
    have h1 : ¬(p = [] ∨ p = ['.']) := by
      rintro (hc | hc)
      · exact hp.1 hc
      · exact hp.2.1 hc
    rw [sanitizeSegs, if_neg h1, if_neg hp.2.2,
        ih (fun q hq => h q (List.mem_cons_of_mem _ hq)), except_bind_ok]

theorem normSlashes_no_backslash {s : List Char} : '\\' ∉ normSlashes s := by
  intro h
  rcases List.mem_map.mp h with ⟨c, _, hc⟩
  by_cases h' : c = '\\' <;> simp [h'] at hc

theorem normSlashes_id {s : List Char} (h : '\\' ∉ s) : normSlashes s = s := by
  induction s with
  | nil => rfl
  | cons x xs ih =>
    simp at h
    simp [normSlashes] at ih ⊢
    exact ⟨by simp [Ne.symm h.1], ih h.2⟩

theorem dropSlashes_of_head {s : List Char} (h : ∀ c, s.head? = some c → c ≠ '/') :
    dropSlashes s = s := by
  cases s with
  | nil => rfl
  | cons x xs =>
    have := h x rfl
    simp [dropSlashes, List.dropWhile, this]

theorem splitOnChar_no_sep {c : Char} {p : List Char} (h : c ∉ p) :
    splitOnChar c p = [p] := by
  induction p with
  | nil => rfl
  | cons x xs ih =>
    simp at h
    rw [splitOnChar, if_neg (Ne.symm h.1), ih h.2]

theorem splitOnChar_append_sep {c : Char} {p r : List Char} (h : c ∉ p) :
    splitOnChar c (p ++ c :: r) = p :: splitOnChar c r := by
  induction p with
  | nil => simp [splitOnChar]
  | cons x xs ih =>
    simp at h
    rw [List.cons_append, splitOnChar, if_neg (Ne.symm h.1), ih h.2]

theorem split_join {ps : List (List Char)} (hne : ps ≠ [])
    (h : ∀ p ∈ ps, '/' ∉ p) :
    splitOnChar '/' (joinParts ps) = ps := by
  induction ps with
  | nil => exact absurd rfl hne
  | cons p ps ih =>
    cases ps with
    | nil => exact splitOnChar_no_sep (h p (List.mem_cons_self _ _))
    | cons q qs =>
      rw [joinParts_cons, splitOnChar_append_sep (h p (List.mem_cons_self _ _)),
          ih (List.cons_ne_nil q qs) (fun r hr => h r (List.mem_cons_of_mem _ hr))]

theorem chars_of_joinParts {ps : List (List Char)} :
    ∀ x ∈ joinParts ps, x = '/' ∨ ∃ p ∈ ps, x ∈ p := by
  induction ps with
  | nil => simp [joinParts]
  | cons p ps ih =>
    cases ps with
    | nil => intro x hx; exact Or.inr ⟨p, by simp, hx⟩
    | cons q qs =>
      intro x hx
      rw [joinParts_cons] at hx
      rcases List.mem_append.mp hx with h | h
      · exact Or.inr ⟨p, by simp, h⟩
      · rcases List.mem_cons.mp h with h' | h'
        · exact Or.inl h'
        · rcases ih x h' with h'' | ⟨r, hr, hxr⟩
          · exact Or.inl h''
          · exact Or.inr ⟨r, List.mem_cons_of_mem _ hr, hxr⟩

theorem pathSegs_props {s : List Char} {ps : List (List Char)}
    (h : pathSegs s = .ok ps) :
    ∀ p ∈ ps, p ≠ [] ∧ p ≠ ['.'] ∧ p ≠ ['.', '.'] ∧ '/' ∉ p ∧ '\\' ∉ p := by
  intro p hp
  have hmem := sanitizeSegs_ok_mem h p hp
  have hsep := mem_splitOnChar_not_sep p hmem.1
  refine ⟨hmem.2.1, hmem.2.2.1, hmem.2.2.2, hsep, ?_⟩
  intro hbs
  have hx := chars_of_splitOnChar p hmem.1 _ hbs
  have : ('\\' : Char) ∈ normSlashes s :=
    List.dropWhile_sublist _ |>.subset hx
  exact normSlashes_no_backslash this

/-- Claim C9 helper: the output of a successful sanitization. -/
theorem sanitize_ok_iff {s : List Char} {t : List Char} :
    sanitize_bank_rel s = .ok t ↔ ∃ ps, pathSegs s = .ok ps ∧ t = joinParts ps := by
  constructor
  · intro h
    rcases hs : pathSegs s with e | ps
    · rw [sanitize_bank_rel, hs, except_bind_err] at h
      exact absurd h (by simp)
    · rw [sanitize_bank_rel, hs, except_bind_ok] at h
      injection h with h
      exact ⟨ps, rfl, h.symm⟩
  · rintro ⟨ps, hps, ht⟩
    rw [sanitize_bank_rel, hps, except_bind_ok, ht]

theorem joinParts_no_backslash {ps : List (List Char)}
    (h : ∀ p ∈ ps, '\\' ∉ p) : '\\' ∉ joinParts ps := by
  intro hx
  rcases chars_of_joinParts _ hx with h' | ⟨p, hp, hxp⟩
  · exact absurd h' (by decide)
  · exact h p hp hxp

theorem pathSegs_of_sanitized {s t : List Char} {ps : List (List Char)}
    (hps : pathSegs s = .ok ps) (ht : t = joinParts ps) :
    pathSegs t = .ok ps := by
  have props := pathSegs_props hps
  have hnb : normSlashes t = t := by
    refine normSlashes_id ?_
    rw [ht]
    exact joinParts_no_backslash (fun p hp => (props p hp).2.2.2.2)
  cases ps with
  | nil =>
    subst ht
    rfl
  | cons p rest =>
    have hp0 := props p (List.mem_cons_self _ _)
    have hds : dropSlashes t = t := by
      refine dropSlashes_of_head ?_
      intro c hc hceq
      subst hceq
      cases p with
      | nil => exact hp0.1 rfl
      | cons c0 cs =>
        have hc0 : c0 = '/' := by
          cases rest with
          | nil =>
            rw [ht] at hc
            simp [joinParts] at hc
            exact hc
          | cons q qs =>
            rw [ht, joinParts_cons] at hc
            simp at hc
            exact hc
        exact hp0.2.2.2.1 (by rw [← hc0]; exact List.mem_cons_self _ _)
    have hsplit : splitOnChar '/' t = p :: rest := by
      rw [ht]
      exact split_join (List.cons_ne_nil _ _)
        (fun r hr => (props r hr).2.2.2.1)
    rw [pathSegs, hnb, hds, hsplit]
    exact sanitizeSegs_fixed (fun q hq => ⟨(props q hq).1, (props q hq).2.1, (props q hq).2.2.1⟩)

/-- C9 — `sanitize_bank_rel` is idempotent: whenever it succeeds, running it
again on its own output returns that output unchanged, so the Writer's
re-sanitization of already-sanitized paths in the filename block never
changes a path. -/
theorem sanitize_bank_rel_idempotent {s t : List Char}
    (h : sanitize_bank_rel s = .ok t) : sanitize_bank_rel t = .ok t := by
  rcases sanitize_ok_iff.mp h with ⟨ps, hps, ht⟩
  exact sanitize_ok_iff.mpr ⟨ps, pathSegs_of_sanitized hps ht, ht⟩

/-- Witness for C9 at the concrete input "a//.//b". -/
theorem sanitize_bank_rel_idempotent_witness :
    sanitize_bank_rel "a//.//b".data = .ok "a/b".data ∧
    sanitize_bank_rel "a/b".data = .ok "a/b".data :=
  ⟨by decide, @sanitize_bank_rel_idempotent "a//.//b".data "a/b".data (by decide)⟩

/-- C2 (counterexample): the claim asserts `"/etc/passwd"` is rejected by the
path-safety layer; in fact both `sanitize_bank_rel` and `safe_join` strip the
leading slash and accept it as the relative path "etc/passwd". -/
theorem traversal_claim_counterexample :
    sanitize_bank_rel "/etc/passwd".data = .ok "etc/passwd".data ∧
    safe_join "/etc/passwd".data = .ok ["etc".data, "passwd".data] := by
  exact ⟨by decide, by decide⟩

/-- C2 (amended) — traversal rejection: `"../x"` and `"a/../../b"` are
rejected with the traversal error by both `safe_join` and
`sanitize_bank_rel`; `"/etc/passwd"` is not rejected — its leading slash is
stripped and it is accepted as the relative path "etc/passwd" (joined under
the extraction root); `"a/./b"` normalizes to `"a/b"` and is accepted; and
any path containing a `..` segment fails immediately with the traversal
error, never silently resolved or skipped. -/
theorem traversal_rejection :
    sanitize_bank_rel "../x".data = .error .traversal ∧
    safe_join "../x".data = .error .traversal ∧
    sanitize_bank_rel "a/../../b".data = .error .traversal ∧
    safe_join "a/../../b".data = .error .traversal ∧
    sanitize_bank_rel "/etc/passwd".data = .ok "etc/passwd".data ∧
    safe_join "/etc/passwd".data = .ok ["etc".data, "passwd".data] ∧
    sanitize_bank_rel "a/./b".data = .ok "a/b".data ∧
    safe_join "a/./b".data = .ok ["a".data, "b".data] ∧
    (∀ s : List Char, hasDotDotSeg s →
      sanitize_bank_rel s = .error .traversal ∧ safe_join s = .error .traversal) := by
  refine ⟨by decide, by decide, by decide, by decide, by decide, by decide,
    by decide, by decide, ?_⟩
  intro s hdd
  have herr : pathSegs s = .error .traversal := sanitizeSegs_error_iff.mpr hdd
  constructor
  · rw [sanitize_bank_rel, herr, except_bind_err]
  · exact herr

/-- Witness for C2's universally quantified clause at the concrete path
"x/../y". -/
theorem traversal_rejection_witness :
    sanitize_bank_rel "x/../y".data = .error .traversal ∧
    safe_join "x/../y".data = .error .traversal :=
  traversal_rejection.2.2.2.2.2.2.2.2 "x/../y".data (by unfold hasDotDotSeg; decide)

/-! ## Reader lemmas -/

theorem except_throw {α : Type} (e : BankError) :
    (throw e : Except BankError α) = .error e := rfl

theorem except_pure {α : Type} (a : α) :
    (pure a : Except BankError α) = .ok a := rfl

theorem takeWhile_of_findIdx_none {l : List Nat}
    (h : l.findIdx? (fun b => b == 0) = none) :
    l.takeWhile (fun b => b != 0) = l := by
  induction l with
  | nil => rfl
  | cons x xs ih =>
    rw [List.findIdx?_cons] at h
    by_cases hx : x = 0
    · rw [if_pos (by simp [hx])] at h
      exact absurd h (by simp)
    · rw [if_neg (by simp [hx]), List.findIdx?_succ] at h
      rcases hf : xs.findIdx? (fun b => b == 0) with _ | k
      · rw [List.takeWhile_cons, if_pos (by simp [hx]), ih hf]
      · rw [hf] at h
        exact absurd h (by simp)

theorem takeWhile_of_findIdx_some {l : List Nat} {k : Nat}
    (h : l.findIdx? (fun b => b == 0) = some k) :
    l.takeWhile (fun b => b != 0) = l.take k := by
  induction l generalizing k with
  | nil => simp [List.findIdx?] at h
  | cons x xs ih =>
    rw [List.findIdx?_cons] at h
    by_cases hx : x = 0
    · rw [if_pos (by simp [hx])] at h
      injection h with h
      subst h
      rw [List.takeWhile_cons, if_neg (by simp [hx]), List.take_zero]
    · rw [if_neg (by simp [hx]), List.findIdx?_succ] at h
      rcases hf : xs.findIdx? (fun b => b == 0) with _ | k'
      · rw [hf] at h
        exact absurd h (by simp)
      · rw [hf] at h
        simp only [Option.map] at h
        injection h with h
        subst h
        rw [List.takeWhile_cons, if_pos (by simp [hx]), List.take_succ_cons, ih hf]

/-- C6 — name resolution: the Reader rejects a location with the bounds
error exactly when `name_off` is not below the filename-block length
(`0 ≤ name_off` being automatic); otherwise the resolved name is the bytes
from `name_off` up to the first NUL byte, or up to the end of the block when
no NUL occurs before it (a tolerated fallback, not an error). -/
theorem resolveName_spec (blk : List Nat) (off : Nat) :
    resolveName blk off =
      if off < blk.length then .ok ((blk.drop off).takeWhile (fun b => b != 0))
      else .error .boundsErr := by
  by_cases h : off < blk.length
  · rw [resolveName, if_neg (by omega), if_pos h, findNul]
    rcases hf : (blk.drop off).findIdx? (fun b => b == 0) with _ | k
    · rw [takeWhile_of_findIdx_none hf]
      show Except.ok ((blk.take blk.length).drop off) = Except.ok (blk.drop off)
      rw [List.take_length]
    · rw [takeWhile_of_findIdx_some hf]
      show Except.ok ((blk.take (off + k)).drop off) = Except.ok ((blk.drop off).take k)
      rw [List.drop_take]
      have harith : off + k - off = k := by omega
      rw [harith]
  · rw [resolveName, if_pos (by omega), if_neg h]

/-- C4 — header rejection: any input of at least 16 bytes whose first 16
bytes differ anywhere from magic ++ corruption-check ++ version fails with
the format error of the first mismatching field (not-a-bank vs corrupted vs
unsupported version), and hence produces no entries. -/
theorem header_rejection (bs : List Nat) (hlen : 16 ≤ bs.length)
    (hne : bs.take 16 ≠ FILE_ID_B ++ (CORRUPTION_B ++ VERSION_B)) :
    parseBank bs = .error
      (if bs.take 4 ≠ FILE_ID_B then .notABank
       else if (bs.drop 4).take 4 ≠ CORRUPTION_B then .corrupted
       else .badVersion) := by
  have hd8 : (bs.drop 4).drop 4 = bs.drop 8 := by rw [List.drop_drop]
  have h1 : readExact 4 bs = .ok (bs.take 4, bs.drop 4) := by
    rw [readExact, if_pos (by omega)]
  have h2 : readExact 4 (bs.drop 4) = .ok ((bs.drop 4).take 4, bs.drop 8) := by
    rw [readExact, if_pos (by rw [List.length_drop]; omega), hd8]
  have h3 : readExact 8 (bs.drop 8) = .ok ((bs.drop 8).take 8, (bs.drop 8).drop 8) := by
    rw [readExact, if_pos (by rw [List.length_drop]; omega)]
  have hsplit : bs.take 16 = bs.take 4 ++ ((bs.drop 4).take 4 ++ (bs.drop 8).take 8) := by
    have e1 : bs.take 16 = bs.take 4 ++ (bs.drop 4).take 12 := List.take_add bs 4 12
    have e2 : (bs.drop 4).take 12 = (bs.drop 4).take 4 ++ ((bs.drop 4).drop 4).take 8 :=
      List.take_add (bs.drop 4) 4 8
    rw [e1, e2, hd8]
  by_cases hm : bs.take 4 = FILE_ID_B
  · by_cases hc : (bs.drop 4).take 4 = CORRUPTION_B
    · have hv : (bs.drop 8).take 8 ≠ VERSION_B := by
        intro hv
        exact hne (by rw [hsplit, hm, hc, hv])
      simp [parseBank, parseEntriesPre, h1, h2, h3, hm, hc, hv,
        except_bind_ok, except_bind_err, except_throw, except_pure]
    · simp [parseBank, parseEntriesPre, h1, h2, hm, hc,
        except_bind_ok, except_bind_err, except_throw, except_pure]
  · simp [parseBank, parseEntriesPre, h1, hm,
      except_bind_ok, except_bind_err, except_throw, except_pure]

/-- Witness for C4: sixteen zero bytes are rejected as not-a-bank. -/
theorem header_rejection_witness :
    parseBank (List.replicate 16 0) = .error
      (if (List.replicate 16 (0 : Nat)).take 4 ≠ FILE_ID_B then .notABank
       else if ((List.replicate 16 (0 : Nat)).drop 4).take 4 ≠ CORRUPTION_B then .corrupted
       else .badVersion) :=
  header_rejection (List.replicate 16 0) (by decide) (by decide)

/-! ## Stable sort lemmas -/

theorem insertLe_perm {α : Type} (le : α → α → Bool) (x : α) (l : List α) :
    (insertLe le x l).Perm (x :: l) := by
  induction l with
  | nil => exact List.Perm.refl _
  | cons y ys ih =>
    rw [insertLe]
    by_cases h : le x y = true
    · rw [if_pos h]
    · rw [if_neg h]
      exact (ih.cons y).trans (List.Perm.swap x y ys)

theorem sortStable_perm {α : Type} (le : α → α → Bool) (l : List α) :
    (sortStable le l).Perm l := by
  induction l with
  | nil => exact List.Perm.refl _
  | cons x xs ih =>
    exact (insertLe_perm le x (sortStable le xs)).trans (ih.cons x)

theorem mem_insertLe {α : Type} {le : α → α → Bool} {x z : α} {l : List α} :
    z ∈ insertLe le x l ↔ z = x ∨ z ∈ l := by
  constructor
  · intro h
    have := (insertLe_perm le x l).mem_iff.mp h
    simpa using this
  · intro h
    apply (insertLe_perm le x l).mem_iff.mpr
    simpa using h

theorem insertLe_pairwise {α : Type} {le : α → α → Bool}
    (htot : ∀ a b, le a b = true ∨ le b a = true)
    (htrans : ∀ a b c, le a b = true → le b c = true → le a c = true)
    {x : α} {l : List α} (hl : l.Pairwise (fun a b => le a b = true)) :
    (insertLe le x l).Pairwise (fun a b => le a b = true) := by
  induction l with
  | nil => simp [insertLe]
  | cons y ys ih =>
    rcases List.pairwise_cons.mp hl with ⟨hy, hys⟩
    rw [insertLe]
    by_cases h : le x y = true
    · rw [if_pos h]
      refine List.pairwise_cons.mpr ⟨?_, hl⟩
      intro z hz
      rcases List.mem_cons.mp hz with h' | h'
      · rw [h']; exact h
      · exact htrans x y z h (hy z h')
    · rw [if_neg h]
      refine List.pairwise_cons.mpr ⟨?_, ih hys⟩
      intro z hz
      rcases mem_insertLe.mp hz with h' | h'
      · rw [h']
        rcases htot x y with h'' | h''
        · exact absurd h'' h
        · exact h''
      · exact hy z h'

theorem sortStable_pairwise {α : Type} {le : α → α → Bool}
    (htot : ∀ a b, le a b = true ∨ le b a = true)
    (htrans : ∀ a b c, le a b = true → le b c = true → le a c = true)
    (l : List α) :
    (sortStable le l).Pairwise (fun a b => le a b = true) := by
  induction l with
  | nil => simp [sortStable]
  | cons x xs ih => exact insertLe_pairwise htot htrans ih

theorem sortStable_eq_of_pairwise {α : Type} {le : α → α → Bool} {l : List α}
    (hl : l.Pairwise (fun a b => le a b = true)) :
    sortStable le l = l := by
  induction l with
  | nil => rfl
  | cons x xs ih =>
    rcases List.pairwise_cons.mp hl with ⟨hx, hxs⟩
    rw [sortStable, ih hxs]
    cases xs with
    | nil => rfl
    | cons y ys =>
      rw [insertLe, if_pos (hx y (List.mem_cons_self _ _))]

theorem eq_of_perm_of_pairwise {α : Type} {le : α → α → Bool} {l₁ l₂ : List α}
    (hanti : ∀ a ∈ l₁, ∀ b ∈ l₁, le a b = true → le b a = true → a = b)
    (hperm : l₁.Perm l₂)
    (h₁ : l₁.Pairwise (fun a b => le a b = true))
    (h₂ : l₂.Pairwise (fun a b => le a b = true)) :
    l₁ = l₂ := by
  induction l₁ generalizing l₂ with
  | nil => exact (hperm.nil_eq).symm ▸ rfl
  | cons a t₁ ih =>
    cases l₂ with
    | nil => exact absurd hperm.symm (by simp)
    | cons b t₂ =>
      rcases List.pairwise_cons.mp h₁ with ⟨ha, ht₁⟩
      rcases List.pairwise_cons.mp h₂ with ⟨hb, ht₂⟩
      have hab : a = b := by
        have hainb : a ∈ b :: t₂ := hperm.mem_iff.mp (List.mem_cons_self _ _)
        have hbina : b ∈ a :: t₁ := hperm.mem_iff.mpr (List.mem_cons_self _ _)
        rcases List.mem_cons.mp hainb with h' | h'
        · exact h'
        · rcases List.mem_cons.mp hbina with h'' | h''
          · exact h''.symm
          · have h1 : le b a = true := hb a h'
            have h2 : le a b = true := ha b h''
            exact hanti a (List.mem_cons_self _ _) b (List.mem_cons_of_mem _ h'') h2 h1
      subst hab
      have hperm' : t₁.Perm t₂ := (List.perm_cons a).mp hperm
      have hanti' : ∀ x ∈ t₁, ∀ y ∈ t₁, le x y = true → le y x = true → x = y :=
        fun x hx y hy => hanti x (List.mem_cons_of_mem _ hx) y (List.mem_cons_of_mem _ hy)
      rw [ih hanti' hperm' ht₁ ht₂]

/-! ## Overlap check lemmas -/

theorem leOff_total (a b : BankEntry) : leOff a b = true ∨ leOff b a = true := by
  simp [leOff]
  omega

theorem leOff_trans (a b c : BankEntry) :
    leOff a b = true → leOff b c = true → leOff a c = true := by
  simp [leOff]
  omega

theorem checkAdj_ok_iff {l : List BankEntry} :
    checkAdj l = .ok () ↔ l.Chain' (fun a b => a.loc.data_end ≤ b.loc.data_off) := by
  induction l with
  | nil => simp [checkAdj]
  | cons a t ih =>
    cases t with
    | nil => simp [checkAdj]
    | cons b rest =>
      rw [checkAdj, List.chain'_cons]
      by_cases h : a.loc.data_end > b.loc.data_off
      · rw [if_pos h]
        simp
        omega
      · rw [if_neg h, ih]
        simp
        omega

theorem checkAdj_shape (l : List BankEntry) :
    checkAdj l = .ok () ∨ ∃ a b, checkAdj l = .error (.overlap a b) := by
  induction l with
  | nil => exact Or.inl rfl
  | cons a t ih =>
    cases t with
    | nil => exact Or.inl rfl
    | cons b rest =>
      rw [checkAdj]
      by_cases h : a.loc.data_end > b.loc.data_off
      · rw [if_pos h]
        exact Or.inr ⟨a.name_bytes, b.name_bytes, rfl⟩
      · rw [if_neg h]
        exact ih

theorem rangesDisjoint_symm {a b : BankEntry} (h : rangesDisjoint a b) :
    rangesDisjoint b a := h.symm

theorem pairwise_disjoint_of_chain {l : List BankEntry}
    (hsort : l.Pairwise (fun a b => leOff a b = true))
    (hch : l.Chain' (fun a b => a.loc.data_end ≤ b.loc.data_off)) :
    l.Pairwise rangesDisjoint := by
  induction l with
  | nil => exact List.Pairwise.nil
  | cons a t ih =>
    rcases List.pairwise_cons.mp hsort with ⟨hale, ht⟩
    refine List.pairwise_cons.mpr ⟨?_, ih ht (List.Chain'.tail hch)⟩
    intro b hb
    cases t with
    | nil => simp at hb
    | cons c rest =>
      have hac : a.loc.data_end ≤ c.loc.data_off := (List.chain'_cons.mp hch).1
      rcases List.mem_cons.mp hb with h' | h'
      · subst h'
        exact Or.inl hac
      · have hcb : leOff c b = true := (List.pairwise_cons.mp ht).1 b h'
        have : c.loc.data_off ≤ b.loc.data_off := by simpa [leOff] using hcb
        exact Or.inl (by omega)

theorem chain_of_pairwise_disjoint {l : List BankEntry}
    (hsort : l.Pairwise (fun a b => leOff a b = true))
    (hfile : ∀ e ∈ l, e.is_file = true)
    (hp : l.Pairwise rangesDisjoint) :
    l.Chain' (fun a b => a.loc.data_end ≤ b.loc.data_off) := by
  induction l with
  | nil => exact List.chain'_nil
  | cons a t ih =>
    cases t with
    | nil => simp
    | cons b rest =>
      rcases List.pairwise_cons.mp hsort with ⟨hale, ht⟩
      rcases List.pairwise_cons.mp hp with ⟨had, htp⟩
      refine List.chain'_cons.mpr ⟨?_, ih ht (fun e he => hfile e (List.mem_cons_of_mem _ he)) htp⟩
      have hd : rangesDisjoint a b := had b (List.mem_cons_self _ _)
      have hle : a.loc.data_off ≤ b.loc.data_off := by
        simpa [leOff] using hale b (List.mem_cons_self _ _)
      have hbf : b.is_file = true := hfile b (List.mem_cons_of_mem _ (List.mem_cons_self _ _))
      have hbsz : b.loc.data_size ≠ 0 := by
        simpa [BankEntry.is_file] using hbf
      rcases hd with h' | h'
      · exact h'
      · exfalso
        rw [Location.data_end] at h'
        omega

theorem overlapCheck_ok_iff {es : List BankEntry} :
    overlapCheck es = .ok () ↔
      (es.filter (fun e => e.is_file)).Pairwise rangesDisjoint := by
  have hperm := sortStable_perm leOff (es.filter (fun e => e.is_file))
  have hsort := sortStable_pairwise leOff_total leOff_trans (es.filter (fun e => e.is_file))
  constructor
  · intro h
    rw [overlapCheck, checkAdj_ok_iff] at h
    have := pairwise_disjoint_of_chain hsort h
    exact this.perm hperm (fun h' => rangesDisjoint_symm h')
  · intro h
    rw [overlapCheck, checkAdj_ok_iff]
    have hfil : ∀ e ∈ sortStable leOff (es.filter (fun e => e.is_file)), e.is_file = true := by
      intro e he
      have : e ∈ es.filter (fun e => e.is_file) := hperm.mem_iff.mp he
      exact (List.mem_filter.mp this).2
    exact chain_of_pairwise_disjoint hsort hfil
      (h.perm hperm.symm (fun h' => rangesDisjoint_symm h'))

theorem hasOverlapPair_iff_not_pairwise {es : List BankEntry} :
    hasOverlapPair es ↔
      ¬ es.Pairwise (fun a b => a.is_file = true → b.is_file = true → rangesDisjoint a b) := by
  rw [List.pairwise_iff_getElem]
  constructor
  · rintro ⟨i, j, hij, hfi, hfj, h1, h2⟩
    intro hall
    rcases Nat.lt_or_ge i.val j.val with hlt | hge
    · have := hall i.val j.val i.isLt j.isLt hlt hfi hfj
      rw [rangesDisjoint] at this
      simp only [List.get_eq_getElem] at h1 h2
      omega
    · have hlt : j.val < i.val := by
        rcases Nat.eq_or_lt_of_le hge with he | hl
        · exact absurd (Fin.ext he.symm) hij
        · exact hl
      have := hall j.val i.val j.isLt i.isLt hlt hfj hfi
      rw [rangesDisjoint] at this
      simp only [List.get_eq_getElem] at h1 h2
      omega
  · intro hnot
    by_contra hno
    apply hnot
    intro i j hi hj hij hfi hfj
    rw [rangesDisjoint]
    by_contra hd
    apply hno
    refine ⟨⟨i, hi⟩, ⟨j, hj⟩, ?_, hfi, hfj, ?_, ?_⟩
    · intro he
      exact absurd (Fin.val_eq_of_eq he) (Nat.ne_of_lt hij)
    · simp only [List.get_eq_getElem]
      omega
    · simp only [List.get_eq_getElem]
      omega

theorem pairwise_filter_is_file {es : List BankEntry} :
    (es.filter (fun e => e.is_file)).Pairwise rangesDisjoint ↔
      es.Pairwise (fun a b => a.is_file = true → b.is_file = true → rangesDisjoint a b) := by
  have h : List.Pairwise rangesDisjoint
      (es.filter fun e => decide (e.is_file = true)) ↔
      es.Pairwise (fun a b => a.is_file = true → b.is_file = true →
        rangesDisjoint a b) :=
    List.pairwise_filter
  have hfe : (fun e : BankEntry => decide (e.is_file = true)) = fun e => e.is_file := by
    funext e
    simp
  rw [hfe] at h
  exact h

/-- C3 — overlap rejection: given the parse succeeds up to the overlap
check, the Reader fails with the overlap error (naming two entries) exactly
when two file entries' half-open `[data_off, data_off + data_size)` ranges
intersect (so touching ranges are accepted), and otherwise returns exactly
the entry sequence in original on-disk location order (the check only sorts
a temporary copy). -/
theorem overlap_rejection {bs : List Nat} {es : List BankEntry}
    (h : parseEntriesPre bs = .ok es) :
    ((∃ a b, parseBank bs = .error (.overlap a b)) ↔ hasOverlapPair es) ∧
    (parseBank bs = .ok es ↔ ¬ hasOverlapPair es) := by
  have hunf : parseBank bs = (overlapCheck es >>= fun _ => .ok es) := by
    rw [parseBank, h, except_bind_ok]
  have hiff : overlapCheck es = .ok () ↔ ¬ hasOverlapPair es := by
    rw [overlapCheck_ok_iff, hasOverlapPair_iff_not_pairwise, pairwise_filter_is_file]
    exact not_not.symm
  rcases checkAdj_shape (sortStable leOff (es.filter (fun e => e.is_file))) with hok | ⟨a, b, herr⟩
  · have hoc : overlapCheck es = .ok () := hok
    constructor
    · constructor
      · rintro ⟨a, b, hab⟩
        rw [hunf, hoc, except_bind_ok] at hab
        exact absurd hab (by simp)
      · intro hov
        exact absurd hoc (by rw [hiff]; exact not_not_intro hov)
    · constructor
      · intro _
        exact hiff.mp hoc
      · intro _
        rw [hunf, hoc, except_bind_ok]
  · have hoc : overlapCheck es = .error (.overlap a b) := herr
    have hne : overlapCheck es ≠ .ok () := by rw [hoc]; simp
    have hov : hasOverlapPair es := by
      by_contra hno
      exact hne (hiff.mpr hno)
    constructor
    · constructor
      · intro _
        exact hov
      · intro _
        exact ⟨a, b, by rw [hunf, hoc, except_bind_err]⟩
    · constructor
      · intro hok'
        rw [hunf, hoc, except_bind_err] at hok'
        exact absurd hok' (by simp)
      · intro hno
        exact absurd hov hno

/-- Witness for C3 at `bank58`, whose pre-check parse yields one entry. -/
theorem overlap_rejection_witness :
    ((∃ a b, parseBank bank58 = .error (.overlap a b)) ↔ hasOverlapPair [entry58]) ∧
    (parseBank bank58 = .ok [entry58] ↔ ¬ hasOverlapPair [entry58]) :=
  overlap_rejection (by decide)

/-- C7 (counterexample): the Reader's parse accepts `bank58` although its
file entry's range `[100, 101)` extends past the 58-byte end of the
container, and payload retrieval on that accepted entry then fails with the
unexpected-end-of-input error — refuting the claim that every accepted
container has all file ranges within the file. -/
theorem data_range_counterexample :
    parseBank bank58 = .ok [entry58] ∧
    entry58.is_file = true ∧
    bank58.length < entry58.loc.data_end ∧
    readFileBytes bank58 entry58 = .error .eof := by
  refine ⟨by decide, by decide, by decide, by decide⟩

/-- C7 (amended) — parsing does not validate payload ranges against the
container length; instead, payload retrieval on a file entry of a
successfully parsed container succeeds (with the byte slice at its range)
exactly when `data_off + data_size` does not exceed the container length,
and fails with the unexpected-end-of-input error otherwise. -/
theorem data_range_retrieval {bs : List Nat} {es : List BankEntry} {e : BankEntry}
    (hp : parseBank bs = .ok es) (he : e ∈ es) (hf : e.is_file = true) :
    readFileBytes bs e =
      if e.loc.data_end ≤ bs.length
      then .ok ((bs.drop e.loc.data_off).take e.loc.data_size)
      else .error .eof := by
  rw [readFileBytes, if_pos hf]
  by_cases h : e.loc.data_end ≤ bs.length
  · rw [if_pos h]
    have hle : e.loc.data_size ≤ (bs.drop e.loc.data_off).length := by
      rw [List.length_drop]
      rw [Location.data_end] at h
      omega
    rw [readExact, if_pos hle]
  · rw [if_neg h]
    have hsz : e.loc.data_size ≠ 0 := by
      simpa [BankEntry.is_file] using hf
    have hgt : ¬ e.loc.data_size ≤ (bs.drop e.loc.data_off).length := by
      rw [List.length_drop]
      rw [Location.data_end] at h
      omega
    rw [readExact, if_neg hgt]

/-- Witness for C7 at `bank58` and its single (out-of-range) entry. -/
theorem data_range_retrieval_witness :
    readFileBytes bank58 entry58 =
      if entry58.loc.data_end ≤ bank58.length
      then .ok ((bank58.drop entry58.loc.data_off).take entry58.loc.data_size)
      else .error .eof :=
  @data_range_retrieval bank58 [entry58] entry58 (by decide) (by decide) (by decide)

/-! ## Writer lemmas -/

theorem copyAux_spec {fuel : Nat} {src : List Nat} {r : Nat} (hf : r ≤ fuel) :
    copyAux fuel src r = if r ≤ src.length then .ok (src.take r) else .error .eof := by
  induction fuel generalizing src r with
  | zero =>
    have hr : r = 0 := by omega
    subst hr
    simp [copyAux]
  | succ fuel ih =>
    by_cases hr : r = 0
    · subst hr
      simp [copyAux]
    · rw [copyAux, if_neg hr]
      have hcl : (src.take (min 1048576 r)).length = min (min 1048576 r) src.length := by
        rw [List.length_take]
      by_cases hz : (src.take (min 1048576 r)).length = 0
      · rw [if_pos hz]
        have hsrc : src.length = 0 := by
          rw [hcl] at hz
          omega
        rw [if_neg (by omega)]
      · rw [if_neg hz]
        have hrec := @ih (src.drop (src.take (min 1048576 r)).length)
          (r - (src.take (min 1048576 r)).length) (by omega)
        rw [hrec]
        rw [List.length_drop, hcl]
        by_cases hin : r ≤ src.length
        · have hcl' : min (min 1048576 r) src.length = min 1048576 r := by omega
          rw [if_pos (by omega), if_pos hin]
          have htake : src.take r =
              src.take (min 1048576 r) ++ (src.drop (min 1048576 r)).take (r - min 1048576 r) := by
            have : r = min 1048576 r + (r - min 1048576 r) := by omega
            conv_lhs => rw [this]
            rw [List.take_add]
          rw [hcl']
          show Except.ok (src.take (min 1048576 r) ++ (src.drop (min 1048576 r)).take (r - min 1048576 r)) =
            Except.ok (src.take r)
          rw [← htake]
        · rw [if_neg (by omega), if_neg hin]

theorem copyLoop_spec (src : List Nat) (r : Nat) :
    copyLoop src r = if r ≤ src.length then .ok (src.take r) else .error .eof :=
  copyAux_spec (Nat.le_refl r)

theorem decU64_u64le (n : Nat) : decU64 (u64le n) = n % 18446744073709551616 := by
  rw [u64le, decU64]
  simp only [List.foldr]
  omega

theorem decU64_u64le_of_lt {n : Nat} (h : n < 18446744073709551616) :
    decU64 (u64le n) = n := by
  rw [decU64_u64le, Nat.mod_eq_of_lt h]

theorem u64le_length (n : Nat) : (u64le n).length = 8 := rfl

theorem readExact_append {l r : List Nat} {n : Nat} (h : l.length = n) :
    readExact n (l ++ r) = .ok (l, r) := by
  subst h
  rw [readExact, if_pos (by simp), List.take_left, List.drop_left]

theorem readU64_append {n : Nat} {r : List Nat} (h : n < 18446744073709551616) :
    readU64 (u64le n ++ r) = .ok (n, r) := by
  rw [readU64, readExact_append (u64le_length n), except_bind_ok]
  show Except.ok (decU64 (u64le n), r) = Except.ok (n, r)
  rw [decU64_u64le_of_lt h]

theorem utf8EncodeChar_ne_zero {c : Char} (h : c.toNat ≠ 0) :
    ∀ b ∈ utf8EncodeChar c, b ≠ 0 := by
  intro b hb
  rw [utf8EncodeChar] at hb
  by_cases h1 : c.toNat < 128
  · rw [if_pos h1] at hb
    simp at hb
    omega
  · rw [if_neg h1] at hb
    by_cases h2 : c.toNat < 2048
    · rw [if_pos h2] at hb
      simp at hb
      rcases hb with hb | hb <;> omega
    · rw [if_neg h2] at hb
      by_cases h3 : c.toNat < 65536
      · rw [if_pos h3] at hb
        simp at hb
        rcases hb with hb | hb | hb <;> omega
      · rw [if_neg h3] at hb
        simp at hb
        rcases hb with hb | hb | hb | hb <;> omega

theorem utf8Encode_ne_zero {s : List Char} (h : ∀ c ∈ s, c.toNat ≠ 0) :
    ∀ b ∈ utf8Encode s, b ≠ 0 := by
  intro b hb
  rcases List.mem_flatMap.mp hb with ⟨c, hc, hbc⟩
  exact utf8EncodeChar_ne_zero (h c hc) b hbc

theorem takeWhile_append_zero {l r : List Nat} (h : ∀ b ∈ l, b ≠ 0) :
    (l ++ 0 :: r).takeWhile (fun b => b != 0) = l := by
  induction l with
  | nil => simp
  | cons x xs ih =>
    have hx : x ≠ 0 := h x (List.mem_cons_self _ _)
    rw [List.cons_append, List.takeWhile_cons, if_pos (by simp [hx])]
    rw [ih (fun b hb => h b (List.mem_cons_of_mem _ hb))]

theorem buildNameBlockAux_fixed {names : List (List Char × Bool)} {c : Nat}
    (hs : ∀ x ∈ names, sanitize_bank_rel x.1 = .ok x.1) :
    buildNameBlockAux names c =
      .ok (offsOf c (names.map (fun x => x.1)), blkOf (names.map (fun x => x.1))) := by
  induction names generalizing c with
  | nil => rfl
  | cons x rest ih =>
    rcases x with ⟨rel, d⟩
    rw [buildNameBlockAux, hs (rel, d) (List.mem_cons_self _ _), except_bind_ok,
        ih (fun y hy => hs y (List.mem_cons_of_mem _ hy)), except_bind_ok]
    rfl

theorem buildNameBlockAux_ok {names : List (List Char × Bool)} {c : Nat}
    (hs : ∀ x ∈ names, ∃ t, sanitize_bank_rel x.1 = .ok t) :
    ∃ offs blk, buildNameBlockAux names c = .ok (offs, blk) := by
  induction names generalizing c with
  | nil => exact ⟨[], [], rfl⟩
  | cons x rest ih =>
    rcases hs x (List.mem_cons_self _ _) with ⟨t, ht⟩
    rcases @ih (c + (utf8Encode t ++ [0]).length)
      (fun y hy => hs y (List.mem_cons_of_mem _ hy)) with ⟨offs, blk, hb⟩
    refine ⟨c :: offs, utf8Encode t ++ [0] ++ blk, ?_⟩
    rcases x with ⟨rel, d⟩
    rw [buildNameBlockAux, ht, except_bind_ok, hb, except_bind_ok]

theorem buildNameBlockAux_offs_length {names : List (List Char × Bool)} {c : Nat}
    {offs blk : List Nat} (h : buildNameBlockAux names c = .ok (offs, blk)) :
    offs.length = names.length := by
  induction names generalizing c offs blk with
  | nil =>
    rw [buildNameBlockAux] at h
    injection h with h
    injection h with h1 h2
    rw [← h1]
    rfl
  | cons x rest ih =>
    rcases x with ⟨rel, d⟩
    rw [buildNameBlockAux] at h
    rcases hsr : sanitize_bank_rel rel with e | rn
    · rw [hsr, except_bind_err] at h
      exact absurd h (by simp)
    · rw [hsr, except_bind_ok] at h
      rcases hbb : buildNameBlockAux rest (c + (utf8Encode rn ++ [0]).length) with e | p
      · rw [hbb, except_bind_err] at h
        exact absurd h (by simp)
      · rcases p with ⟨offs', blk'⟩
        rw [hbb, except_bind_ok] at h
        injection h with h
        injection h with h1 h2
        rw [← h1, List.length_cons, ih hbb]
        rfl

theorem offsOf_length (c : Nat) (rns : List (List Char)) :
    (offsOf c rns).length = rns.length := by
  induction rns generalizing c with
  | nil => rfl
  | cons rn rest ih => rw [offsOf, List.length_cons, List.length_cons, ih]

theorem blkOf_append (a b : List (List Char)) :
    blkOf (a ++ b) = blkOf a ++ blkOf b := by
  rw [blkOf, blkOf, blkOf, List.flatMap_append]

theorem blkOf_length_lower (rns : List (List Char)) : rns.length ≤ (blkOf rns).length := by
  induction rns with
  | nil => simp [blkOf]
  | cons rn rest ih =>
    rw [blkOf] at ih ⊢
    rw [List.flatMap_cons, List.length_append, List.length_append]
    simp only [List.length_cons, List.length_nil]
    omega

theorem offsOf_append (c : Nat) (a b : List (List Char)) :
    offsOf c (a ++ b) = offsOf c a ++ offsOf (c + (blkOf a).length) b := by
  induction a generalizing c with
  | nil => simp [offsOf, blkOf]
  | cons rn rest ih =>
    have h1 : (blkOf (rn :: rest)).length =
        (utf8Encode rn ++ [0]).length + (blkOf rest).length := by
      rw [blkOf, List.flatMap_cons, List.length_append, ← blkOf]
    rw [List.cons_append, offsOf, offsOf, ih, List.cons_append]
    have h2 : c + (utf8Encode rn ++ [0]).length + (blkOf rest).length =
        c + (blkOf (rn :: rest)).length := by rw [h1]; omega
    rw [h2]

theorem offsOf_lt_blkOf {c : Nat} {rns : List (List Char)} :
    ∀ o ∈ offsOf c rns, o < c + (blkOf rns).length := by
  induction rns generalizing c with
  | nil => simp [offsOf]
  | cons rn rest ih =>
    intro o ho
    rw [offsOf] at ho
    have hbl : (blkOf (rn :: rest)).length =
        (utf8Encode rn ++ [0]).length + (blkOf rest).length := by
      rw [blkOf, List.flatMap_cons, List.length_append, ← blkOf]
    rcases List.mem_cons.mp ho with h | h
    · subst h
      rw [hbl, List.length_append]
      simp only [List.length_cons, List.length_nil]
      omega
    · have := ih o h
      rw [hbl]
      omega

theorem lookupRel_mem {fes : List FileEntry} {f : FileEntry} (hf : f ∈ fes) :
    ∃ g, lookupRel fes f.rel = some g ∧ g ∈ fes ∧ g.rel = f.rel := by
  have hmem : f ∈ fes.filter (fun g => g.rel == f.rel) :=
    List.mem_filter.mpr ⟨hf, by simp⟩
  rcases hl : (fes.filter (fun g => g.rel == f.rel)).getLast? with _ | g
  · rw [List.getLast?_eq_none_iff] at hl
    rw [hl] at hmem
    simp at hmem
  · have hg : g ∈ fes.filter (fun g => g.rel == f.rel) := by
      have hmem' : g ∈ (fes.filter (fun g => g.rel == f.rel)).getLast? := by
        rw [hl]; rfl
      rcases List.mem_getLast?_eq_getLast hmem' with ⟨hne, heq⟩
      rw [heq]
      exact List.getLast_mem hne
    rcases List.mem_filter.mp hg with ⟨hgin, hgrel⟩
    exact ⟨g, hl, hgin, by simpa using hgrel⟩

theorem lookupRel_nodup {fes : List FileEntry}
    (hnd : (fes.map (fun f => f.rel)).Nodup) {f : FileEntry} (hf : f ∈ fes) :
    lookupRel fes f.rel = some f := by
  induction fes with
  | nil => simp at hf
  | cons g rest ih =>
    rw [List.map_cons, List.nodup_cons] at hnd
    rcases List.mem_cons.mp hf with h | h
    · subst h
      have hempty : rest.filter (fun x => x.rel == f.rel) = [] := by
        rw [List.filter_eq_nil_iff]
        intro x hx
        simp only [beq_iff_eq]
        intro hxr
        exact hnd.1 (List.mem_map.mpr ⟨x, hx, hxr⟩)
      rw [lookupRel, List.filter_cons, if_pos (by simp), hempty]
      rfl
    · have hner : ¬ (g.rel == f.rel) = true := by
        simp only [beq_iff_eq]
        intro hgr
        exact hnd.1 (List.mem_map.mpr ⟨f, h, hgr.symm⟩)
      rw [lookupRel, List.filter_cons, if_neg hner]
      exact ih hnd.2 h

theorem computeLocs_dirs {fes : List FileEntry} {dirs : List (List Char)}
    {doffs : List Nat} {rest : List ((List Char × Bool) × Nat)} {cur : Nat}
    {locs' : List (Nat × Nat × Nat)}
    (hlen : dirs.length = doffs.length)
    (h : computeLocs fes rest cur = .ok locs') :
    computeLocs fes ((dirs.map (fun d => (d, true))).zip doffs ++ rest) cur =
      .ok (doffs.map (fun o => (o, 0, 0)) ++ locs') := by
  induction dirs generalizing doffs with
  | nil =>
    cases doffs with
    | nil => simpa using h
    | cons o os => simp at hlen
  | cons d ds ih =>
    cases doffs with
    | nil => simp at hlen
    | cons o os =>
      rw [List.map_cons, List.zip_cons_cons, List.cons_append, computeLocs,
          if_pos rfl, ih (by simpa using hlen) , except_bind_ok]
      rfl

theorem computeLocs_files_nodup {fes fs : List FileEntry} {foffs : List Nat} {cur : Nat}
    (hsub : ∀ f ∈ fs, lookupRel fes f.rel = some f)
    (hlen : fs.length = foffs.length) :
    computeLocs fes ((fs.map (fun f => (f.rel, false))).zip foffs) cur =
      .ok (fileLocsSpec fs foffs cur) := by
  induction fs generalizing foffs cur with
  | nil =>
    cases foffs with
    | nil => rfl
    | cons o os => simp at hlen
  | cons f fs ih =>
    cases foffs with
    | nil => simp at hlen
    | cons o os =>
      rw [List.map_cons, List.zip_cons_cons, computeLocs, if_neg (by simp),
          hsub f (List.mem_cons_self _ _)]
      show (do
          let ls ← computeLocs fes ((fs.map (fun f => (f.rel, false))).zip os) (cur + f.size)
          Except.ok ((o, cur, f.size) :: ls)) =
        Except.ok (fileLocsSpec (f :: fs) (o :: os) cur)
      rw [ih (fun g hg => hsub g (List.mem_cons_of_mem _ hg)) (by simpa using hlen),
          except_bind_ok]
      rfl

theorem computeLocs_files_shape {fes fs : List FileEntry} {foffs : List Nat} {cur : Nat}
    (hlook : ∀ f ∈ fs, ∃ g, lookupRel fes f.rel = some g)
    (hlen : fs.length = foffs.length) :
    ∃ locs, computeLocs fes ((fs.map (fun f => (f.rel, false))).zip foffs) cur = .ok locs ∧
      locs.length = fs.length ∧ contiguousFrom cur locs := by
  induction fs generalizing foffs cur with
  | nil =>
    cases foffs with
    | nil => exact ⟨[], rfl, rfl, trivial⟩
    | cons o os => simp at hlen
  | cons f fs ih =>
    cases foffs with
    | nil => simp at hlen
    | cons o os =>
      rcases hlook f (List.mem_cons_self _ _) with ⟨g, hg⟩
      rcases @ih os (cur + g.size)
        (fun x hx => hlook x (List.mem_cons_of_mem _ hx))
        (by simpa using hlen) with ⟨locs, hc, hl, hcont⟩
      refine ⟨(o, cur, g.size) :: locs, ?_, by simpa using hl, rfl, hcont⟩
      rw [List.map_cons, List.zip_cons_cons, computeLocs, if_neg (by simp), hg]
      show (do
          let ls ← computeLocs fes ((fs.map (fun f => (f.rel, false))).zip os) (cur + g.size)
          Except.ok ((o, cur, g.size) :: ls)) =
        Except.ok ((o, cur, g.size) :: locs)
      rw [hc, except_bind_ok]

theorem dataRegion_dirs {fes : List FileEntry} {dirs : List (List Char)}
    {rest : List (List Char × Bool)} :
    dataRegion fes (dirs.map (fun d => (d, true)) ++ rest) = dataRegion fes rest := by
  induction dirs with
  | nil => rfl
  | cons d ds ih =>
    rw [List.map_cons, List.cons_append, dataRegion, if_pos rfl, ih]

theorem dataRegion_files_nodup {fes fs : List FileEntry}
    (hsub : ∀ f ∈ fs, lookupRel fes f.rel = some f)
    (hsz : ∀ f ∈ fs, f.size ≤ f.bytes.length) :
    dataRegion fes (fs.map (fun f => (f.rel, false))) =
      .ok (fs.flatMap (fun f => f.bytes.take f.size)) := by
  induction fs with
  | nil => rfl
  | cons f fs ih =>
    rw [List.map_cons, dataRegion, if_neg (by simp), hsub f (List.mem_cons_self _ _)]
    show (do
        let d ← copyLoop f.bytes f.size
        let ds ← dataRegion fes (fs.map (fun f => (f.rel, false)))
        Except.ok (d ++ ds)) =
      Except.ok ((f :: fs).flatMap (fun f => f.bytes.take f.size))
    rw [copyLoop_spec, if_pos (hsz f (List.mem_cons_self _ _)), except_bind_ok,
        ih (fun g hg => hsub g (List.mem_cons_of_mem _ hg))
           (fun g hg => hsz g (List.mem_cons_of_mem _ hg)),
        except_bind_ok, List.flatMap_cons]

theorem dataRegion_files_ok_iff {fes fs : List FileEntry}
    (hsub : ∀ f ∈ fs, ∃ g, lookupRel fes f.rel = some g ∧ g = f) :
    (∃ d, dataRegion fes (fs.map (fun f => (f.rel, false))) = .ok d) ↔
      ∀ f ∈ fs, f.size ≤ f.bytes.length := by
  induction fs with
  | nil => simp [dataRegion]
  | cons f fs ih =>
    rcases hsub f (List.mem_cons_self _ _) with ⟨g, hg, hgf⟩
    subst hgf
    rw [List.map_cons, dataRegion, if_neg (by simp), hg]
    have ihr := ih (fun x hx => hsub x (List.mem_cons_of_mem _ hx))
    have hred : ∀ d : List Nat,
        ((match some g with
          | none => Except.error BankError.keyError
          | some fe => do
            let d2 ← copyLoop fe.bytes fe.size
            let ds ← dataRegion fes (fs.map (fun f => (f.rel, false)))
            Except.ok (d2 ++ ds)) = Except.ok d) ↔
        ((do
            let d2 ← copyLoop g.bytes g.size
            let ds ← dataRegion fes (fs.map (fun f => (f.rel, false)))
            Except.ok (d2 ++ ds)) = Except.ok d) := fun d => Iff.rfl
    constructor
    · rintro ⟨d, hd⟩
      rw [hred, copyLoop_spec] at hd
      by_cases hle : g.size ≤ g.bytes.length
      · rw [if_pos hle, except_bind_ok] at hd
        intro x hx
        rcases List.mem_cons.mp hx with h | h
        · subst h; exact hle
        · rcases hdr : dataRegion fes (fs.map (fun f => (f.rel, false))) with e | ds
          · rw [hdr, except_bind_err] at hd
            exact absurd hd (by simp)
          · exact ihr.mp ⟨ds, hdr⟩ x h
      · rw [if_neg hle, except_bind_err] at hd
        exact absurd hd (by simp)
    · intro hall
      rcases ihr.mpr (fun x hx => hall x (List.mem_cons_of_mem _ hx)) with ⟨ds, hds⟩
      refine ⟨g.bytes.take g.size ++ ds, ?_⟩
      rw [hred, copyLoop_spec, if_pos (hall g (List.mem_cons_self _ _)), except_bind_ok,
          hds, except_bind_ok]

theorem readLocations_append {ls : List (Nat × Nat × Nat)} {r : List Nat}
    (hb : ∀ x ∈ ls, x.1 < 18446744073709551616 ∧ x.2.1 < 18446744073709551616 ∧
      x.2.2 < 18446744073709551616) :
    readLocations ls.length (ls.flatMap packLoc ++ r) =
      .ok (ls.map (fun x => Location.mk x.1 x.2.1 x.2.2), r) := by
  induction ls with
  | nil => rfl
  | cons x ls ih =>
    rcases hb x (List.mem_cons_self _ _) with ⟨hb1, hb2, hb3⟩
    rw [List.length_cons, List.flatMap_cons, List.append_assoc, readLocations,
        readExact_append (by rw [packLoc]; simp [u64le_length])]
    rw [except_bind_ok]
    show (do
        let (ls2, rest2) ← readLocations ls.length (ls.flatMap packLoc ++ r)
        Except.ok (Location.mk (decU64 ((packLoc x).take 8))
          (decU64 (((packLoc x).drop 8).take 8)) (decU64 ((packLoc x).drop 16)) :: ls2, rest2)) =
      Except.ok ((x :: ls).map (fun x => Location.mk x.1 x.2.1 x.2.2), r)
    rw [ih (fun y hy => hb y (List.mem_cons_of_mem _ hy)), except_bind_ok]
    have ht8 : (packLoc x).take 8 = u64le x.1 := by
      rw [packLoc, List.append_assoc, List.take_left' (u64le_length x.1)]
    have hd8 : ((packLoc x).drop 8).take 8 = u64le x.2.1 := by
      rw [packLoc, List.append_assoc, List.drop_left' (u64le_length x.1),
          List.take_left' (u64le_length x.2.1)]
    have hd16 : (packLoc x).drop 16 = u64le x.2.2 := by
      rw [packLoc, List.drop_left' (by simp [u64le_length])]
    show Except.ok (Location.mk (decU64 ((packLoc x).take 8))
        (decU64 (((packLoc x).drop 8).take 8)) (decU64 ((packLoc x).drop 16)) ::
        ls.map (fun x => Location.mk x.1 x.2.1 x.2.2), r) =
      Except.ok ((x :: ls).map (fun x => Location.mk x.1 x.2.1 x.2.2), r)
    rw [ht8, hd8, hd16, decU64_u64le_of_lt hb1, decU64_u64le_of_lt hb2,
        decU64_u64le_of_lt hb3, List.map_cons]

theorem resolveAll_blkOf {pre : List Nat} {rns : List (List Char)} {locs : List Location}
    (hnul : ∀ rn ∈ rns, ∀ c ∈ rn, c.toNat ≠ 0)
    (halign : locs.map Location.name_off = offsOf pre.length rns) :
    resolveAll (pre ++ blkOf rns) locs =
      .ok (List.zipWith (fun rn (l : Location) => BankEntry.mk (utf8Encode rn) l) rns locs) := by
  induction rns generalizing pre locs with
  | nil =>
    cases locs with
    | nil => rfl
    | cons l ls => simp [offsOf] at halign
  | cons rn rest ih =>
    cases locs with
    | nil => simp [offsOf] at halign
    | cons l ls =>
      rw [List.map_cons, offsOf] at halign
      injection halign with h1 h2
      have hlow := blkOf_length_lower (rn :: rest)
      have hlt : l.name_off < (pre ++ blkOf (rn :: rest)).length := by
        rw [List.length_append, h1]
        simp only [List.length_cons] at hlow
        omega
      have hdrop : (pre ++ blkOf (rn :: rest)).drop l.name_off =
          utf8Encode rn ++ 0 :: blkOf rest := by
        rw [h1, List.drop_left, blkOf, List.flatMap_cons, ← blkOf, List.append_assoc]
        rfl
      have hblk : pre ++ blkOf (rn :: rest) = (pre ++ (utf8Encode rn ++ [0])) ++ blkOf rest := by
        rw [blkOf, List.flatMap_cons, ← blkOf]
        simp [List.append_assoc]
      rw [resolveAll, resolveName_spec, if_pos hlt, hdrop,
          takeWhile_append_zero (utf8Encode_ne_zero (hnul rn (List.mem_cons_self _ _))),
          except_bind_ok, hblk,
          ih (fun x hx => hnul x (List.mem_cons_of_mem _ hx))
            (by rw [List.length_append]; exact h2),
          except_bind_ok, List.zipWith_cons_cons]

theorem computeLocs_name_offs {fes : List FileEntry}
    {pairs : List ((List Char × Bool) × Nat)} {cur : Nat} {locs : List (Nat × Nat × Nat)}
    (h : computeLocs fes pairs cur = .ok locs) :
    locs.map (fun l => l.1) = pairs.map (fun p => p.2) := by
  induction pairs generalizing cur locs with
  | nil =>
    rw [computeLocs] at h
    injection h with h
    subst h
    rfl
  | cons p rest ih =>
    rcases p with ⟨⟨rel, isDir⟩, noff⟩
    rw [computeLocs] at h
    by_cases hd : isDir = true
    · rw [if_pos hd] at h
      rcases hc : computeLocs fes rest cur with e | ls
      · rw [hc, except_bind_err] at h
        exact absurd h (by simp)
      · rw [hc, except_bind_ok] at h
        injection h with h
        subst h
        rw [List.map_cons, List.map_cons, ih hc]
    · rw [if_neg hd] at h
      rcases hl : lookupRel fes rel with _ | fe
      · rw [hl] at h
        exact absurd h (by simp)
      · rw [hl] at h
        have h' : (do
            let ls ← computeLocs fes rest (cur + fe.size)
            Except.ok ((noff, cur, fe.size) :: ls)) = Except.ok locs := h
        rcases hc : computeLocs fes rest (cur + fe.size) with e | ls
        · rw [hc, except_bind_err] at h'
          exact absurd h' (by simp)
        · rw [hc, except_bind_ok] at h'
          injection h' with h'
          subst h'
          rw [List.map_cons, List.map_cons, ih hc]

theorem flatMap_packLoc_length (ls : List (Nat × Nat × Nat)) :
    (ls.flatMap packLoc).length = 24 * ls.length := by
  induction ls with
  | nil => rfl
  | cons x ls ih =>
    rw [List.flatMap_cons, List.length_append, ih, List.length_cons]
    have : (packLoc x).length = 24 := by rw [packLoc]; simp [u64le_length]
    omega

theorem fileLocsSpec_length {fs : List FileEntry} {os : List Nat} {cur : Nat}
    (h : fs.length = os.length) :
    (fileLocsSpec fs os cur).length = fs.length := by
  induction fs generalizing os cur with
  | nil => cases os with
    | nil => rfl
    | cons o os => simp at h
  | cons f fs ih =>
    cases os with
    | nil => simp at h
    | cons o os =>
      rw [fileLocsSpec, List.length_cons, List.length_cons, ih (by simpa using h)]

theorem flatMap_take_length {fs : List FileEntry}
    (h : ∀ f ∈ fs, f.size ≤ f.bytes.length) :
    (fs.flatMap (fun f => f.bytes.take f.size)).length = sumSizes fs := by
  induction fs with
  | nil => rfl
  | cons f fs ih =>
    rw [List.flatMap_cons, List.length_append, List.length_take,
        ih (fun g hg => h g (List.mem_cons_of_mem _ hg))]
    have := h f (List.mem_cons_self _ _)
    simp only [sumSizes, List.map_cons, List.sum_cons]
    omega

theorem locNames_length (dirs : List (List Char)) (fes : List FileEntry) :
    (locNames dirs fes).length = dirs.length + fes.length := by
  rw [locNames, List.length_append, List.length_map, List.length_map]

/-- C10 — the Writer emits exactly the declared size for each payload:
writing succeeds exactly when every file's source yields at least its
declared size (a shorter source is an error); on success the data region is
the concatenation of exactly `size` bytes per file (excess source bytes are
silently ignored) and the total output length is 32 + 24*location_count +
filename_block_length + sum of declared sizes. -/
theorem write_bank_exact_sizes {dirs : List (List Char)} {fes : List FileEntry}
    (hsd : ∀ d ∈ dirs, ∃ t, sanitize_bank_rel d = .ok t)
    (hsf : ∀ f ∈ fes, ∃ t, sanitize_bank_rel f.rel = .ok t)
    (hnd : (fes.map (fun f => f.rel)).Nodup) :
    ((∃ out, write_bank dirs fes = .ok out) ↔ ∀ f ∈ fes, f.size ≤ f.bytes.length) ∧
    (∀ out offs blk, write_bank dirs fes = .ok out →
      buildNameBlockAux (locNames dirs fes) 0 = .ok (offs, blk) →
      out.length = 32 + 24 * (dirs.length + fes.length) + blk.length + sumSizes fes ∧
      ∃ pre, pre.length = 32 + 24 * (dirs.length + fes.length) + blk.length ∧
        out = pre ++ fes.flatMap (fun f => f.bytes.take f.size)) := by
  have hs : ∀ x ∈ locNames dirs fes, ∃ t, sanitize_bank_rel x.1 = .ok t := by
    intro x hx
    rw [locNames] at hx
    rcases List.mem_append.mp hx with h | h
    · rcases List.mem_map.mp h with ⟨d, hd, hdx⟩
      subst hdx
      exact hsd d hd
    · rcases List.mem_map.mp h with ⟨f, hf, hfx⟩
      subst hfx
      exact hsf f hf
  rcases @buildNameBlockAux_ok _ 0 hs with ⟨offs, blk, hb⟩
  have holen : offs.length = (locNames dirs fes).length := buildNameBlockAux_offs_length hb
  have hnlen := locNames_length dirs fes
  have hdlen : (offs.take dirs.length).length = dirs.length := by
    rw [List.length_take]
    omega
  have hflen : fes.length = (offs.drop dirs.length).length := by
    rw [List.length_drop]
    omega
  have hzip : (locNames dirs fes).zip offs =
      (dirs.map (fun d => (d, true))).zip (offs.take dirs.length) ++
      (fes.map (fun f => (f.rel, false))).zip (offs.drop dirs.length) := by
    conv_lhs => rw [locNames, ← List.take_append_drop dirs.length offs]
    rw [List.zip_append (by rw [List.length_map, hdlen])]
  have hsub : ∀ f ∈ fes, lookupRel fes f.rel = some f := fun f hf => lookupRel_nodup hnd hf
  have hcomp : computeLocs fes ((locNames dirs fes).zip offs)
      (24 + (locNames dirs fes).length * 24 + 8 + blk.length) =
      .ok ((offs.take dirs.length).map (fun o => (o, 0, 0)) ++
        fileLocsSpec fes (offs.drop dirs.length)
          (24 + (locNames dirs fes).length * 24 + 8 + blk.length)) := by
    rw [hzip]
    exact computeLocs_dirs hdlen.symm (computeLocs_files_nodup hsub hflen)
  have hdata : dataRegion fes (locNames dirs fes) =
      dataRegion fes (fes.map (fun f => (f.rel, false))) := by
    rw [locNames]
    exact dataRegion_dirs
  have hkey : ∀ res, write_bank dirs fes = res ↔
      (do
        let data ← dataRegion fes (fes.map (fun f => (f.rel, false)))
        Except.ok (FILE_ID_B ++ CORRUPTION_B ++ VERSION_B ++
          u64le (locNames dirs fes).length ++
          ((offs.take dirs.length).map (fun o => (o, 0, 0)) ++
            fileLocsSpec fes (offs.drop dirs.length)
              (24 + (locNames dirs fes).length * 24 + 8 + blk.length)).flatMap packLoc ++
          u64le blk.length ++ blk ++ data)) = res := by
    intro res
    rw [write_bank, hb, except_bind_ok]
    show ((do
      let locs ← computeLocs fes ((locNames dirs fes).zip offs)
        (24 + (locNames dirs fes).length * 24 + 8 + blk.length)
      let data ← dataRegion fes (locNames dirs fes)
      Except.ok (FILE_ID_B ++ CORRUPTION_B ++ VERSION_B ++
        u64le (locNames dirs fes).length ++ locs.flatMap packLoc ++
        u64le blk.length ++ blk ++ data)) = res) ↔ _
    rw [hcomp, except_bind_ok, hdata]
  constructor
  · constructor
    · rintro ⟨out, hout⟩
      rw [hkey (.ok out)] at hout
      have hdr : ∃ d, dataRegion fes (fes.map (fun f => (f.rel, false))) = .ok d := by
        rcases hd : dataRegion fes (fes.map (fun f => (f.rel, false))) with e | d
        · rw [hd, except_bind_err] at hout
          exact absurd hout (by simp)
        · exact ⟨d, hd⟩
      exact (dataRegion_files_ok_iff
        (fun f hf => ⟨f, hsub f hf, rfl⟩)).mp hdr
    · intro hall
      rcases (dataRegion_files_ok_iff (fun f hf => ⟨f, hsub f hf, rfl⟩)).mpr hall with ⟨d, hd⟩
      refine ⟨FILE_ID_B ++ CORRUPTION_B ++ VERSION_B ++
          u64le (locNames dirs fes).length ++
          ((offs.take dirs.length).map (fun o => (o, 0, 0)) ++
            fileLocsSpec fes (offs.drop dirs.length)
              (24 + (locNames dirs fes).length * 24 + 8 + blk.length)).flatMap packLoc ++
          u64le blk.length ++ blk ++ d, (hkey _).mpr ?_⟩
      rw [hd, except_bind_ok]
  · intro out offs' blk' hout hb'
    rw [hb] at hb'
    injection hb' with hb'
    injection hb' with hoe hbe
    subst hoe
    subst hbe
    rw [hkey (.ok out)] at hout
    rcases hd : dataRegion fes (fes.map (fun f => (f.rel, false))) with e | d
    · rw [hd, except_bind_err] at hout
      exact absurd hout (by simp)
    · rw [hd, except_bind_ok] at hout
      have hall : ∀ f ∈ fes, f.size ≤ f.bytes.length :=
        (dataRegion_files_ok_iff (fun f hf => ⟨f, hsub f hf, rfl⟩)).mp ⟨d, hd⟩
      have hdval : d = fes.flatMap (fun f => f.bytes.take f.size) := by
        have := dataRegion_files_nodup hsub hall
        rw [hd] at this
        injection this
      subst hdval
      injection hout with hout
      subst hout
      constructor
      · simp only [List.length_append]
        rw [flatMap_packLoc_length, List.length_append, List.length_map,
            fileLocsSpec_length hflen, hdlen,
            flatMap_take_length hall]
        simp only [FILE_ID_B, CORRUPTION_B, VERSION_B, List.length_cons, List.length_nil,
          u64le_length]
        omega
      · refine ⟨FILE_ID_B ++ CORRUPTION_B ++ VERSION_B ++
          u64le (locNames dirs fes).length ++
          ((offs.take dirs.length).map (fun o => (o, 0, 0)) ++
            fileLocsSpec fes (offs.drop dirs.length)
              (24 + (locNames dirs fes).length * 24 + 8 + blk.length)).flatMap packLoc ++
          u64le blk.length ++ blk, ?_, ?_⟩
        · simp only [List.length_append]
          rw [flatMap_packLoc_length, List.length_append, List.length_map,
              fileLocsSpec_length hflen, hdlen]
          simp only [FILE_ID_B, CORRUPTION_B, VERSION_B, List.length_cons, List.length_nil,
            u64le_length]
          omega
        · rfl

/-- Witness for C10: one file with declared size 2 backed by a 3-byte source. -/
theorem write_bank_exact_sizes_witness :
    ((∃ out, write_bank [] [⟨['a'], 2, [1, 2, 3]⟩] = .ok out) ↔
      ∀ f ∈ [(⟨['a'], 2, [1, 2, 3]⟩ : FileEntry)], f.size ≤ f.bytes.length) ∧
    (∀ out offs blk, write_bank [] [⟨['a'], 2, [1, 2, 3]⟩] = .ok out →
      buildNameBlockAux (locNames [] [⟨['a'], 2, [1, 2, 3]⟩]) 0 = .ok (offs, blk) →
      out.length = 32 + 24 * (([] : List (List Char)).length +
          [(⟨['a'], 2, [1, 2, 3]⟩ : FileEntry)].length) + blk.length +
          sumSizes [⟨['a'], 2, [1, 2, 3]⟩] ∧
      ∃ pre, pre.length = 32 + 24 * (([] : List (List Char)).length +
          [(⟨['a'], 2, [1, 2, 3]⟩ : FileEntry)].length) + blk.length ∧
        out = pre ++ [(⟨['a'], 2, [1, 2, 3]⟩ : FileEntry)].flatMap
          (fun f => f.bytes.take f.size)) :=
  write_bank_exact_sizes
    (by intro d hd; simp at hd)
    (by
      intro f hf
      rw [List.mem_singleton] at hf
      subst hf
      exact ⟨['a'], by decide⟩)
    (by decide)

/-! ## Lexicographic order lemmas -/

theorem lexLt_irrefl (a : List Char) : lexLt a a = false := by
  induction a with
  | nil => rfl
  | cons x xs ih => simp [lexLt, ih]

theorem lexLt_asymm {a b : List Char} (h : lexLt a b = true) : lexLt b a = false := by
  induction a generalizing b with
  | nil =>
    cases b with
    | nil => simp [lexLt] at h
    | cons y ys => rfl
  | cons x xs ih =>
    cases b with
    | nil => simp [lexLt] at h
    | cons y ys =>
      rw [lexLt] at h ⊢
      by_cases hxy : x < y
      · rw [if_neg (lt_asymm hxy), if_pos hxy]
      · rw [if_neg hxy] at h
        by_cases hyx : y < x
        · rw [if_pos hyx] at h
          exact absurd h (by simp)
        · rw [if_neg hyx] at h
          rw [if_neg hyx, if_neg hxy]
          exact ih h

theorem lexLt_trans {a b c : List Char} (h1 : lexLt a b = true) (h2 : lexLt b c = true) :
    lexLt a c = true := by
  induction a generalizing b c with
  | nil =>
    cases c with
    | nil =>
      cases b with
      | nil => simp [lexLt] at h1
      | cons y ys => simp [lexLt] at h2
    | cons z zs => rfl
  | cons x xs ih =>
    cases b with
    | nil => simp [lexLt] at h1
    | cons y ys =>
      cases c with
      | nil => simp [lexLt] at h2
      | cons z zs =>
        rw [lexLt] at h1 h2 ⊢
        by_cases hxy : x < y
        · have hxz : x < z := by
            by_cases hyz : y < z
            · exact lt_trans hxy hyz
            · rw [if_neg hyz] at h2
              by_cases hzy : z < y
              · rw [if_pos hzy] at h2
                exact absurd h2 (by simp)
              · have hyz' : y = z := le_antisymm (not_lt.mp hzy) (not_lt.mp hyz)
                rw [← hyz']
                exact hxy
          rw [if_pos hxz]
        · rw [if_neg hxy] at h1
          by_cases hyx : y < x
          · rw [if_pos hyx] at h1
            exact absurd h1 (by simp)
          · rw [if_neg hyx] at h1
            have hxy' : x = y := le_antisymm (not_lt.mp hyx) (not_lt.mp hxy)
            subst hxy'
            by_cases hxz : x < z
            · rw [if_pos hxz]
            · rw [if_neg hxz] at h2 ⊢
              by_cases hzx : z < x
              · rw [if_pos hzx] at h2
                exact absurd h2 (by simp)
              · rw [if_neg hzx] at h2 ⊢
                exact ih h1 h2

theorem lexLt_connex {a b : List Char} (h : a ≠ b) :
    lexLt a b = true ∨ lexLt b a = true := by
  induction a generalizing b with
  | nil =>
    cases b with
    | nil => exact absurd rfl h
    | cons y ys => exact Or.inl rfl
  | cons x xs ih =>
    cases b with
    | nil => exact Or.inr rfl
    | cons y ys =>
      by_cases hxy : x = y
      · subst hxy
        have hne : xs ≠ ys := by
          intro he
          exact h (by rw [he])
        rcases ih hne with h' | h'
        · exact Or.inl (by rw [lexLt, if_neg (lt_irrefl x), if_neg (lt_irrefl x)]; exact h')
        · exact Or.inr (by rw [lexLt, if_neg (lt_irrefl x), if_neg (lt_irrefl x)]; exact h')
      · rcases lt_or_gt_of_ne hxy with h' | h'
        · exact Or.inl (by rw [lexLt, if_pos h'])
        · exact Or.inr (by rw [lexLt, if_pos h'])

theorem lexLe_total (a b : List Char) : lexLe a b = true ∨ lexLe b a = true := by
  rw [lexLe, lexLe]
  by_cases h : lexLt b a = true
  · right
    rw [lexLt_asymm h]
    rfl
  · left
    rw [Bool.not_eq_true] at h
    rw [h]
    rfl

theorem lexLe_trans {a b c : List Char} (h1 : lexLe a b = true) (h2 : lexLe b c = true) :
    lexLe a c = true := by
  rw [lexLe] at h1 h2 ⊢
  by_cases hca : lexLt c a = true
  · by_cases hbc : b = c
    · subst hbc
      exact h1
    · rcases lexLt_connex hbc with h' | h'
      · have := lexLt_trans h' hca
        rw [this] at h1
        simp at h1
      · rw [h'] at h2
        simp at h2
  · rw [Bool.not_eq_true] at hca
    rw [hca]
    rfl

theorem lexLe_antisymm {a b : List Char} (h1 : lexLe a b = true) (h2 : lexLe b a = true) :
    a = b := by
  by_contra hne
  rcases lexLt_connex hne with h' | h'
  · rw [lexLe, h'] at h2
    simp at h2
  · rw [lexLe, h'] at h1
    simp at h1

theorem leLower_total (f g : FileEntry) : leLower f g = true ∨ leLower g f = true :=
  lexLe_total _ _

theorem leLower_trans (f g h : FileEntry) (h1 : leLower f g = true)
    (h2 : leLower g h = true) : leLower f h = true :=
  lexLe_trans h1 h2

/-! ## Sorted-dedup lemmas -/

theorem mem_insertDedup {x z : List Char} {l : List (List Char)} :
    z ∈ insertDedup x l ↔ z = x ∨ z ∈ l := by
  induction l with
  | nil => simp [insertDedup]
  | cons y ys ih =>
    rw [insertDedup]
    by_cases h1 : lexLt x y = true
    · rw [if_pos h1]
      simp [List.mem_cons]
    · rw [if_neg h1]
      by_cases h2 : x = y
      · rw [if_pos h2]
        subst h2
        simp [List.mem_cons]
      · rw [if_neg h2]
        rw [List.mem_cons, ih, List.mem_cons]
        constructor
        · rintro (h | h | h)
          · exact Or.inr (Or.inl h)
          · exact Or.inl h
          · exact Or.inr (Or.inr h)
        · rintro (h | h | h)
          · exact Or.inr (Or.inl h)
          · exact Or.inl h
          · exact Or.inr (Or.inr h)

theorem insertDedup_pairwise {x : List Char} {l : List (List Char)}
    (hl : l.Pairwise (fun a b => lexLt a b = true)) :
    (insertDedup x l).Pairwise (fun a b => lexLt a b = true) := by
  induction l with
  | nil => simp [insertDedup]
  | cons y ys ih =>
    rcases List.pairwise_cons.mp hl with ⟨hy, hys⟩
    rw [insertDedup]
    by_cases h1 : lexLt x y = true
    · rw [if_pos h1]
      refine List.pairwise_cons.mpr ⟨?_, hl⟩
      intro z hz
      rcases List.mem_cons.mp hz with h | h
      · subst h; exact h1
      · exact lexLt_trans h1 (hy z h)
    · rw [if_neg h1]
      by_cases h2 : x = y
      · rw [if_pos h2]
        exact hl
      · rw [if_neg h2]
        refine List.pairwise_cons.mpr ⟨?_, ih hys⟩
        intro z hz
        rcases mem_insertDedup.mp hz with h | h
        · subst h
          rcases lexLt_connex h2 with h' | h'
          · exact absurd h' h1
          · exact h'
        · exact hy z h

theorem sortedDedup_pairwise (l : List (List Char)) :
    (sortedDedup l).Pairwise (fun a b => lexLt a b = true) := by
  induction l with
  | nil => simp [sortedDedup]
  | cons x xs ih =>
    rw [sortedDedup, List.foldr_cons]
    exact insertDedup_pairwise ih

theorem mem_sortedDedup {z : List Char} {l : List (List Char)} :
    z ∈ sortedDedup l ↔ z ∈ l := by
  induction l with
  | nil => simp [sortedDedup]
  | cons x xs ih =>
    rw [sortedDedup, List.foldr_cons, mem_insertDedup, List.mem_cons]
    rw [sortedDedup] at ih
    rw [ih]

theorem pairwise_lexLt_ext {l₁ l₂ : List (List Char)}
    (h₁ : l₁.Pairwise (fun a b => lexLt a b = true))
    (h₂ : l₂.Pairwise (fun a b => lexLt a b = true))
    (hm : ∀ z, z ∈ l₁ ↔ z ∈ l₂) : l₁ = l₂ := by
  induction l₁ generalizing l₂ with
  | nil =>
    cases l₂ with
    | nil => rfl
    | cons b bs =>
      have := (hm b).mpr (List.mem_cons_self _ _)
      simp at this
  | cons a as ih =>
    cases l₂ with
    | nil =>
      have := (hm a).mp (List.mem_cons_self _ _)
      simp at this
    | cons b bs =>
      rcases List.pairwise_cons.mp h₁ with ⟨ha, has⟩
      rcases List.pairwise_cons.mp h₂ with ⟨hb, hbs⟩
      have hab : a = b := by
        rcases List.mem_cons.mp ((hm a).mp (List.mem_cons_self _ _)) with h' | h'
        · exact h'
        · rcases List.mem_cons.mp ((hm b).mpr (List.mem_cons_self _ _)) with h'' | h''
          · exact h''.symm
          · have hba := hb a h'
            have hab := ha b h''
            have := lexLt_asymm hab
            rw [this] at hba
            exact absurd hba (by simp)
      subst hab
      have hm' : ∀ z, z ∈ as ↔ z ∈ bs := by
        intro z
        constructor
        · intro hz
          rcases List.mem_cons.mp ((hm z).mp (List.mem_cons_of_mem _ hz)) with h' | h'
          · subst h'
            have := ha z hz
            rw [lexLt_irrefl] at this
            exact absurd this (by simp)
          · exact h'
        · intro hz
          rcases List.mem_cons.mp ((hm z).mpr (List.mem_cons_of_mem _ hz)) with h' | h'
          · subst h'
            have := hb z hz
            rw [lexLt_irrefl] at this
            exact absurd this (by simp)
          · exact h'
      rw [ih has hbs hm']

theorem sortedDedup_ext {l₁ l₂ : List (List Char)}
    (h : ∀ z, z ∈ l₁ ↔ z ∈ l₂) : sortedDedup l₁ = sortedDedup l₂ :=
  pairwise_lexLt_ext (sortedDedup_pairwise l₁) (sortedDedup_pairwise l₂)
    (fun z => by rw [mem_sortedDedup, mem_sortedDedup]; exact h z)

/-! ## collect_tree lemmas -/

theorem mapM_collectItem_cons {pc : List Char × List Nat}
    {rest : List (List Char × List Nat)} {results : List (List (List Char) × FileEntry)}
    (h : (pc :: rest).mapM collectItem = .ok results) :
    ∃ r rs, collectItem pc = .ok r ∧ rest.mapM collectItem = .ok rs ∧ results = r :: rs := by
  rw [List.mapM_cons] at h
  rcases h1 : collectItem pc with e | r
  · rw [h1, except_bind_err] at h
    exact absurd h (by simp)
  · rw [h1, except_bind_ok] at h
    rcases h2 : rest.mapM collectItem with e | rs
    · rw [h2, except_bind_err] at h
      exact absurd h (by simp)
    · rw [h2, except_bind_ok] at h
      rw [except_pure] at h
      injection h with h
      exact ⟨r, rs, rfl, rfl, h.symm⟩

theorem mapM_collectItem_mem {inputs : List (List Char × List Nat)}
    {results : List (List (List Char) × FileEntry)}
    (h : inputs.mapM collectItem = .ok results) :
    (∀ r ∈ results, ∃ pc ∈ inputs, collectItem pc = .ok r) ∧
    (∀ pc ∈ inputs, ∃ r ∈ results, collectItem pc = .ok r) := by
  induction inputs generalizing results with
  | nil =>
    have : results = [] := by
      rw [List.mapM_nil, except_pure] at h
      injection h with h
      exact h.symm
    subst this
    refine ⟨?_, ?_⟩ <;> intro x hx <;> simp at hx
  | cons pc rest ih =>
    rcases mapM_collectItem_cons h with ⟨r, rs, hr, hrs, heq⟩
    subst heq
    rcases ih hrs with ⟨ih1, ih2⟩
    constructor
    · intro x hx
      rcases List.mem_cons.mp hx with h' | h'
      · subst h'
        exact ⟨pc, List.mem_cons_self _ _, hr⟩
      · rcases ih1 x h' with ⟨pc', hpc', hc'⟩
        exact ⟨pc', List.mem_cons_of_mem _ hpc', hc'⟩
    · intro x hx
      rcases List.mem_cons.mp hx with h' | h'
      · subst h'
        exact ⟨r, List.mem_cons_self _ _, hr⟩
      · rcases ih2 x h' with ⟨r', hr', hc'⟩
        exact ⟨r', List.mem_cons_of_mem _ hr', hc'⟩

theorem collectItem_ok {pc : List Char × List Nat} {r : List (List Char) × FileEntry} :
    collectItem pc = .ok r ↔
      ∃ segs, pathSegs pc.1 = .ok segs ∧
        r = (ancestorPrefixes segs, ⟨joinParts segs, pc.2.length, pc.2⟩) := by
  constructor
  · intro h
    rcases hs : pathSegs pc.1 with e | segs
    · rw [collectItem, hs, except_bind_err] at h
      exact absurd h (by simp)
    · rw [collectItem, hs, except_bind_ok] at h
      injection h with h
      exact ⟨segs, rfl, h.symm⟩
  · rintro ⟨segs, hs, hr⟩
    rw [collectItem, hs, except_bind_ok, hr]

theorem collect_tree_ok {inputs : List (List Char × List Nat)}
    {ds : List (List Char)} {fs : List FileEntry}
    (h : collect_tree inputs = .ok (ds, fs)) :
    ∃ results, inputs.mapM collectItem = .ok results ∧
      ds = sortedDedup (results.flatMap (fun r => r.1)) ∧
      fs = sortStable leLower (results.map (fun r => r.2)) := by
  rcases hm : inputs.mapM collectItem with e | results
  · rw [collect_tree, hm, except_bind_err] at h
    exact absurd h (by simp)
  · rw [collect_tree, hm, except_bind_ok] at h
    injection h with h
    injection h with h1 h2
    exact ⟨results, rfl, h1.symm, h2.symm⟩

theorem mem_ancestorPrefixes {segs : List (List Char)} {d : List Char} :
    d ∈ ancestorPrefixes segs ↔
      ∃ k, 0 < k ∧ k < segs.length ∧ d = joinParts (segs.take k) := by
  rw [ancestorPrefixes]
  constructor
  · intro h
    rcases List.mem_map.mp h with ⟨k, hk, hd⟩
    rw [List.mem_range] at hk
    exact ⟨k + 1, by omega, by omega, hd.symm⟩
  · rintro ⟨k, hk0, hklen, hd⟩
    refine List.mem_map.mpr ⟨k - 1, ?_, ?_⟩
    · rw [List.mem_range]
      omega
    · have : k - 1 + 1 = k := by omega
      rw [this, ← hd]

/-- C5 — Writer layout: for the writer pipeline's entry lists, (1) the
directory table is deduplicated, sorted lexicographically, and contains
exactly the ancestor directories implied by the walked files' sanitized
paths; (2) the final file list (metadata included) is sorted
case-insensitively by path; and (3) the emitted location table is all
directories first, each with `data_offset = data_size = 0`, followed by the
files, whose data offsets start at `24 + location_count*24 + 8 +
filename_block_length` and advance contiguously by each file's declared
size (non-decreasing, matching table order). -/
theorem writer_layout {inputs : List (List Char × List Nat)} {meta : List Nat}
    {ds : List (List Char)} {fs : List FileEntry}
    (hc : collect_tree inputs = .ok (ds, fs)) :
    ds.Pairwise (fun a b => lexLt a b = true) ∧
    (∀ d, d ∈ ds ↔ ∃ pc ∈ inputs, ∃ segs, pathSegs pc.1 = .ok segs ∧
      ∃ k, 0 < k ∧ k < segs.length ∧ d = joinParts (segs.take k)) ∧
    (ensure_metadata fs meta).Pairwise (fun f g => leLower f g = true) ∧
    (∀ offs blk,
      buildNameBlockAux (locNames ds (ensure_metadata fs meta)) 0 = .ok (offs, blk) →
      ∃ flocs, computeLocs (ensure_metadata fs meta)
          ((locNames ds (ensure_metadata fs meta)).zip offs)
          (24 + (locNames ds (ensure_metadata fs meta)).length * 24 + 8 + blk.length) =
        .ok ((offs.take ds.length).map (fun o => (o, 0, 0)) ++ flocs) ∧
        flocs.length = (ensure_metadata fs meta).length ∧
        contiguousFrom
          (24 + (locNames ds (ensure_metadata fs meta)).length * 24 + 8 + blk.length)
          flocs) := by
  rcases collect_tree_ok hc with ⟨results, hm, hds, hfs⟩
  rcases mapM_collectItem_mem hm with ⟨hm1, hm2⟩
  refine ⟨?_, ?_, ?_, ?_⟩
  · rw [hds]
    exact sortedDedup_pairwise _
  · intro d
    rw [hds, mem_sortedDedup, List.mem_flatMap]
    constructor
    · rintro ⟨r, hr, hdr⟩
      rcases hm1 r hr with ⟨pc, hpc, hcol⟩
      rcases collectItem_ok.mp hcol with ⟨segs, hsegs, hreq⟩
      subst hreq
      rcases mem_ancestorPrefixes.mp hdr with ⟨k, hk0, hklen, hdk⟩
      exact ⟨pc, hpc, segs, hsegs, k, hk0, hklen, hdk⟩
    · rintro ⟨pc, hpc, segs, hsegs, k, hk0, hklen, hdk⟩
      rcases hm2 pc hpc with ⟨r, hr, hcol⟩
      rcases collectItem_ok.mp hcol with ⟨segs', hsegs', hreq⟩
      rw [hsegs] at hsegs'
      injection hsegs' with hse
      subst hse
      subst hreq
      exact ⟨_, hr, mem_ancestorPrefixes.mpr ⟨k, hk0, hklen, hdk⟩⟩
  · rw [ensure_metadata]
    exact sortStable_pairwise leLower_total
      (fun a b c h1 h2 => leLower_trans a b c h1 h2) _
  · intro offs blk hb
    have holen : offs.length = (locNames ds (ensure_metadata fs meta)).length :=
      buildNameBlockAux_offs_length hb
    have hnlen := locNames_length ds (ensure_metadata fs meta)
    have hdlen : (offs.take ds.length).length = ds.length := by
      rw [List.length_take]
      omega
    have hflen : (ensure_metadata fs meta).length = (offs.drop ds.length).length := by
      rw [List.length_drop]
      omega
    have hzip : (locNames ds (ensure_metadata fs meta)).zip offs =
        (ds.map (fun d => (d, true))).zip (offs.take ds.length) ++
        ((ensure_metadata fs meta).map (fun f => (f.rel, false))).zip (offs.drop ds.length) := by
      conv_lhs => rw [locNames, ← List.take_append_drop ds.length offs]
      rw [List.zip_append (by rw [List.length_map, hdlen])]
    rcases @computeLocs_files_shape (ensure_metadata fs meta)
      (ensure_metadata fs meta) (offs.drop ds.length)
      (24 + (locNames ds (ensure_metadata fs meta)).length * 24 + 8 + blk.length)
      (fun f hf => (lookupRel_mem hf).imp (fun g hg => hg.1)) hflen
      with ⟨flocs, hcf, hfl, hcont⟩
    refine ⟨flocs, ?_, hfl, hcont⟩
    rw [hzip]
    exact computeLocs_dirs hdlen.symm hcf

/-- Witness for C5 at a one-file tree `a/b` with 1-byte content. -/
theorem writer_layout_witness :
    ([['a']] : List (List Char)).Pairwise (fun a b => lexLt a b = true) ∧
    (∀ d, d ∈ ([['a']] : List (List Char)) ↔
      ∃ pc ∈ [((['a', '/', 'b'] : List Char), ([7] : List Nat))],
        ∃ segs, pathSegs pc.1 = .ok segs ∧
          ∃ k, 0 < k ∧ k < segs.length ∧ d = joinParts (segs.take k)) ∧
    (ensure_metadata [⟨['a', '/', 'b'], 1, [7]⟩] [9]).Pairwise
      (fun f g => leLower f g = true) ∧
    (∀ offs blk,
      buildNameBlockAux
        (locNames [['a']] (ensure_metadata [⟨['a', '/', 'b'], 1, [7]⟩] [9])) 0 =
        .ok (offs, blk) →
      ∃ flocs, computeLocs (ensure_metadata [⟨['a', '/', 'b'], 1, [7]⟩] [9])
          ((locNames [['a']] (ensure_metadata [⟨['a', '/', 'b'], 1, [7]⟩] [9])).zip offs)
          (24 + (locNames [['a']]
            (ensure_metadata [⟨['a', '/', 'b'], 1, [7]⟩] [9])).length * 24 + 8 +
            blk.length) =
        .ok ((offs.take ([['a']] : List (List Char)).length).map (fun o => (o, 0, 0)) ++
          flocs) ∧
        flocs.length = (ensure_metadata [⟨['a', '/', 'b'], 1, [7]⟩] [9]).length ∧
        contiguousFrom
          (24 + (locNames [['a']]
            (ensure_metadata [⟨['a', '/', 'b'], 1, [7]⟩] [9])).length * 24 + 8 +
            blk.length)
          flocs) :=
  @writer_layout [(['a', '/', 'b'], [7])] [9] [['a']] [⟨['a', '/', 'b'], 1, [7]⟩]
    (by decide)

theorem mapM_collectItem_perm {l1 l2 : List (List Char × List Nat)}
    (hperm : l1.Perm l2) :
    ∀ {r1 : List (List (List Char) × FileEntry)}, l1.mapM collectItem = .ok r1 →
      ∃ r2, l2.mapM collectItem = .ok r2 ∧ r1.Perm r2 := by
  induction hperm with
  | nil =>
    intro r1 h1
    exact ⟨r1, h1, List.Perm.refl _⟩
  | cons x p ih =>
    intro r1 h1
    rcases mapM_collectItem_cons h1 with ⟨r, rs, hr, hrs, heq⟩
    subst heq
    rcases ih hrs with ⟨rs2, hrs2, hp2⟩
    refine ⟨r :: rs2, ?_, hp2.cons r⟩
    rw [List.mapM_cons, hr, except_bind_ok, hrs2, except_bind_ok, except_pure]
  | swap a b t =>
    intro r1 h1
    rcases mapM_collectItem_cons h1 with ⟨rb, rest1, hrb, hrest1, heq⟩
    subst heq
    rcases mapM_collectItem_cons hrest1 with ⟨ra, rest, hra, hrest, heq⟩
    subst heq
    refine ⟨ra :: rb :: rest, ?_, List.Perm.swap ra rb rest⟩
    rw [List.mapM_cons, hra, except_bind_ok, List.mapM_cons, hrb, except_bind_ok,
        hrest, except_bind_ok, except_pure, except_bind_ok, except_pure]
  | trans p1 p2 ih1 ih2 =>
    intro r1 h1
    rcases ih1 h1 with ⟨r2, h2, hp2⟩
    rcases ih2 h2 with ⟨r3, h3, hp3⟩
    exact ⟨r3, h3, hp2.trans hp3⟩

/-- C8 (counterexample): two enumeration orders of the same logical input —
the files "A" (payload 0x01) and "a" (payload 0x02) — produce different
container bytes, because the case-insensitive file sort leaves the tie
between "A" and "a" to the enumeration order. -/
theorem writer_determinism_counterexample :
    ([((['A'] : List Char), ([1] : List Nat)), (['a'], [2])]).Perm
      [(['a'], [2]), (['A'], [1])] ∧
    writeBankFromTree [(['A'], [1]), (['a'], [2])] [] ≠
      writeBankFromTree [(['a'], [2]), (['A'], [1])] [] := by
  constructor
  · decide
  · decide

/-- C8 (amended) — determinism: running the Writer twice on the same logical
input (the same set of relative paths with the same payload bytes and the
same metadata), in any enumeration order, produces byte-identical container
output, PROVIDED the paths are ASCII (where the modelled case folding
`lowerPath` coincides with Python's full-Unicode `str.lower()`) and no two
file paths coincide case-insensitively; with a case-insensitive collision
(e.g. files "A" and "a", or the non-ASCII ties such as "Σ"/"σ" that
`str.lower()` also merges) the stable sort resolves the tie by enumeration
order and the outputs can differ. -/
theorem writer_determinism {l1 l2 : List (List Char × List Nat)} {meta : List Nat}
    {ds : List (List Char)} {fs : List FileEntry}
    (hperm : l1.Perm l2)
    (hc : collect_tree l1 = .ok (ds, fs))
    (hascii : ∀ pc ∈ l1, ∀ c ∈ pc.1, c.toNat < 128)
    (hnd : (fs.map (fun f => lowerPath f.rel)).Nodup) :
    writeBankFromTree l1 meta = writeBankFromTree l2 meta := by
  rcases collect_tree_ok hc with ⟨r1, hm1, hds, hfs⟩
  rcases mapM_collectItem_perm hperm hm1 with ⟨r2, hm2, hp⟩
  have hds2 : sortedDedup (r2.flatMap (fun r => r.1)) = ds := by
    rw [hds]
    refine (sortedDedup_ext ?_).symm
    intro z
    rw [List.mem_flatMap, List.mem_flatMap]
    constructor
    · rintro ⟨r, hr, hz⟩
      exact ⟨r, hp.mem_iff.mp hr, hz⟩
    · rintro ⟨r, hr, hz⟩
      exact ⟨r, hp.mem_iff.mpr hr, hz⟩
  have hfs2 : sortStable leLower (r2.map (fun r => r.2)) = fs := by
    have hperm2 : (sortStable leLower (r2.map (fun r => r.2))).Perm fs := by
      refine (sortStable_perm _ _).trans ?_
      refine ((hp.map (fun r => r.2)).symm).trans ?_
      rw [hfs]
      exact (sortStable_perm _ _).symm
    have hpw2 := sortStable_pairwise leLower_total
      (fun a b c h1 h2 => leLower_trans a b c h1 h2) (r2.map (fun r => r.2))
    have hpw1 : fs.Pairwise (fun a b => leLower a b = true) := by
      rw [hfs]
      exact sortStable_pairwise leLower_total
        (fun a b c h1 h2 => leLower_trans a b c h1 h2) _
    refine eq_of_perm_of_pairwise ?_ hperm2 hpw2 hpw1
    intro a ha b hb h1 h2
    have hkey : lowerPath a.rel = lowerPath b.rel := lexLe_antisymm h1 h2
    have hain : a ∈ fs := hperm2.mem_iff.mp ha
    have hbin : b ∈ fs := hperm2.mem_iff.mp hb
    exact List.inj_on_of_nodup_map hnd hain hbin hkey
  rw [writeBankFromTree, writeBankFromTree, hc, collect_tree, hm2, except_bind_ok]
  show (write_bank ds (ensure_metadata fs meta) : Except BankError (List Nat)) =
    (do
      let (ds2, fs2) := (sortedDedup (r2.flatMap (fun r => r.1)),
        sortStable leLower (r2.map (fun r => r.2)))
      write_bank ds2 (ensure_metadata fs2 meta))
  rw [hds2, hfs2]

/-- Witness for C8: two enumeration orders of files "a" and "b". -/
theorem writer_determinism_witness :
    writeBankFromTree [((['a'] : List Char), ([1] : List Nat)), (['b'], [2])] [] =
      writeBankFromTree [(['b'], [2]), (['a'], [1])] [] :=
  @writer_determinism [((['a'] : List Char), ([1] : List Nat)), (['b'], [2])]
    [(['b'], [2]), (['a'], [1])] [] [] [⟨['a'], 1, [1]⟩, ⟨['b'], 1, [2]⟩]
    (by decide) (by decide) (by decide) (by decide)

/-! ## Round-trip lemmas -/

theorem fileLocsSpec_offs {fes : List FileEntry} {foffs : List Nat} {cur : Nat}
    (hlen : fes.length = foffs.length) :
    (fileLocsSpec fes foffs cur).map (fun x => x.1) = foffs := by
  induction fes generalizing foffs cur with
  | nil =>
    cases foffs with
    | nil => rfl
    | cons o os => simp at hlen
  | cons f fs ih =>
    cases foffs with
    | nil => simp at hlen
    | cons o os =>
      rw [fileLocsSpec, List.map_cons, ih (by simpa using hlen)]

theorem fileLocsSpec_bounds {fes : List FileEntry} {foffs : List Nat} {cur : Nat} :
    ∀ x ∈ fileLocsSpec fes foffs cur,
      x.1 ∈ foffs ∧ cur ≤ x.2.1 ∧ x.2.1 + x.2.2 ≤ cur + sumSizes fes := by
  induction fes generalizing foffs cur with
  | nil =>
    intro x hx
    cases foffs with
    | nil => simp [fileLocsSpec] at hx
    | cons o os => simp [fileLocsSpec] at hx
  | cons f fs ih =>
    intro x hx
    cases foffs with
    | nil => simp [fileLocsSpec] at hx
    | cons o os =>
      rw [fileLocsSpec] at hx
      have hsum : sumSizes (f :: fs) = f.size + sumSizes fs := by
        rw [sumSizes, List.map_cons, List.sum_cons, ← sumSizes]
      rcases List.mem_cons.mp hx with h | h
      · subst h
        refine ⟨List.mem_cons_self _ _, le_refl _, ?_⟩
        show cur + f.size ≤ cur + sumSizes (f :: fs)
        rw [hsum]
        omega
      · rcases ih x h with ⟨h1, h2, h3⟩
        refine ⟨List.mem_cons_of_mem _ h1, by omega, ?_⟩
        rw [hsum]
        omega

theorem dirEntriesSpec_length {dirs : List (List Char)} {doffs : List Nat}
    (hlen : doffs.length = dirs.length) :
    (dirEntriesSpec dirs doffs).length = dirs.length := by
  rw [dirEntriesSpec, List.length_map, List.length_zip]
  omega

theorem fileEntriesSpec_length {fes : List FileEntry} {foffs : List Nat} {cur : Nat}
    (hlen : fes.length = foffs.length) :
    (fileEntriesSpec fes foffs cur).length = fes.length := by
  induction fes generalizing foffs cur with
  | nil =>
    cases foffs with
    | nil => rfl
    | cons o os => simp at hlen
  | cons f fs ih =>
    cases foffs with
    | nil => simp at hlen
    | cons o os =>
      rw [fileEntriesSpec, List.length_cons, List.length_cons, ih (by simpa using hlen)]

theorem dirEntriesSpec_get {dirs : List (List Char)} :
    ∀ (doffs : List Nat) i (hi : i < dirs.length), doffs.length = dirs.length →
      ∃ noff, (dirEntriesSpec dirs doffs)[i]? =
        some ⟨utf8Encode (dirs.get ⟨i, hi⟩), ⟨noff, 0, 0⟩⟩ := by
  induction dirs with
  | nil => intro doffs i hi; simp at hi
  | cons d ds ih =>
    intro doffs i hi hlen
    cases doffs with
    | nil => simp at hlen
    | cons o os =>
      cases i with
      | zero =>
        refine ⟨o, ?_⟩
        rw [dirEntriesSpec, List.zip_cons_cons, List.map_cons, List.getElem?_cons_zero]
        rfl
      | succ i' =>
        have hi' : i' < ds.length := by simpa using hi
        rcases ih os i' hi' (by simpa using hlen) with ⟨noff, hn⟩
        refine ⟨noff, ?_⟩
        rw [dirEntriesSpec, List.zip_cons_cons, List.map_cons, List.getElem?_cons_succ]
        exact hn

theorem fileEntriesSpec_get {fes : List FileEntry} {foffs : List Nat} {cur : Nat} :
    ∀ j (hj : j < fes.length), fes.length = foffs.length →
      ∃ noff, (fileEntriesSpec fes foffs cur)[j]? =
        some ⟨utf8Encode ((fes.get ⟨j, hj⟩).rel),
          ⟨noff, cur + sumSizes (fes.take j), (fes.get ⟨j, hj⟩).size⟩⟩ := by
  induction fes generalizing foffs cur with
  | nil => intro j hj; simp at hj
  | cons f fs ih =>
    intro j hj hlen
    cases foffs with
    | nil => simp at hlen
    | cons o os =>
      cases j with
      | zero =>
        refine ⟨o, ?_⟩
        rw [fileEntriesSpec, List.getElem?_cons_zero]
        simp [sumSizes]
      | succ j' =>
        have hj' : j' < fs.length := by simpa using hj
        rcases @ih os (cur + f.size) j' hj' (by simpa using hlen)
          with ⟨noff, hn⟩
        refine ⟨noff, ?_⟩
        rw [fileEntriesSpec, List.getElem?_cons_succ, hn]
        have : cur + sumSizes ((f :: fs).take (j' + 1)) =
            cur + f.size + sumSizes (fs.take j') := by
          rw [List.take_succ_cons, sumSizes, List.map_cons, List.sum_cons, ← sumSizes]
          omega
        rw [this]
        rfl

theorem fileEntriesSpec_head {fs : List FileEntry} {os : List Nat} {cur : Nat}
    {e : BankEntry} {rest : List BankEntry}
    (h : fileEntriesSpec fs os cur = e :: rest) : e.loc.data_off = cur := by
  cases fs with
  | nil =>
    cases os with
    | nil => simp [fileEntriesSpec] at h
    | cons o os' => simp [fileEntriesSpec] at h
  | cons f fs' =>
    cases os with
    | nil => simp [fileEntriesSpec] at h
    | cons o os' =>
      rw [fileEntriesSpec] at h
      injection h with h1 h2
      rw [← h1]

theorem fileEntriesSpec_chain {fes : List FileEntry} {foffs : List Nat} {cur : Nat} :
    (fileEntriesSpec fes foffs cur).Chain'
      (fun a b => a.loc.data_end ≤ b.loc.data_off ∧ leOff a b = true) := by
  induction fes generalizing foffs cur with
  | nil =>
    cases foffs with
    | nil => exact List.chain'_nil
    | cons o os => exact List.chain'_nil
  | cons f fs ih =>
    cases foffs with
    | nil => exact List.chain'_nil
    | cons o os =>
      rw [fileEntriesSpec]
      refine List.chain'_cons'.mpr ⟨?_, ih⟩
      intro b hb
      rcases hs : fileEntriesSpec fs os (cur + f.size) with _ | ⟨e, rest⟩
      · rw [hs] at hb
        simp at hb
      · rw [hs] at hb
        simp at hb
        subst hb
        have := fileEntriesSpec_head hs
        constructor
        · rw [Location.data_end, this]
        · rw [leOff, this]
          simp

theorem fileEntriesSpec_mem_size {fes : List FileEntry} {foffs : List Nat} {cur : Nat} :
    ∀ e ∈ fileEntriesSpec fes foffs cur, ∃ f ∈ fes, e.loc.data_size = f.size := by
  induction fes generalizing foffs cur with
  | nil =>
    intro e he
    cases foffs with
    | nil => simp [fileEntriesSpec] at he
    | cons o os => simp [fileEntriesSpec] at he
  | cons f fs ih =>
    intro e he
    cases foffs with
    | nil => simp [fileEntriesSpec] at he
    | cons o os =>
      rw [fileEntriesSpec] at he
      rcases List.mem_cons.mp he with h | h
      · subst h
        exact ⟨f, List.mem_cons_self _ _, rfl⟩
      · rcases ih e h with ⟨g, hg, hsz⟩
        exact ⟨g, List.mem_cons_of_mem _ hg, hsz⟩

theorem pairwise_of_chain' {α : Type} {R : α → α → Prop}
    (htrans : ∀ a b c, R a b → R b c → R a c) :
    ∀ {l : List α}, l.Chain' R → l.Pairwise R := by
  intro l
  induction l with
  | nil => intro _; exact List.Pairwise.nil
  | cons a t ih =>
    intro h
    have ht := ih (List.Chain'.tail h)
    refine List.pairwise_cons.mpr ⟨?_, ht⟩
    intro b hb
    cases t with
    | nil => simp at hb
    | cons c t' =>
      have hac : R a c := (List.chain'_cons.mp h).1
      rcases List.mem_cons.mp hb with h' | h'
      · subst h'; exact hac
      · exact htrans a c b hac ((List.pairwise_cons.mp ht).1 b h')

theorem zipWith_dirs_spec {dirs : List (List Char)} :
    ∀ {doffs : List Nat},
      List.zipWith (fun rn (l : Location) => BankEntry.mk (utf8Encode rn) l) dirs
        ((doffs.map (fun o => ((o, 0, 0) : Nat × Nat × Nat))).map
          (fun x => Location.mk x.1 x.2.1 x.2.2)) =
      dirEntriesSpec dirs doffs := by
  induction dirs with
  | nil =>
    intro doffs
    rw [List.zipWith_nil_left]
    rfl
  | cons d ds ih =>
    intro doffs
    cases doffs with
    | nil => rfl
    | cons o os =>
      rw [List.map_cons, List.map_cons, List.zipWith_cons_cons, ih]
      rfl

theorem zipWith_files_spec {fes : List FileEntry} :
    ∀ {foffs : List Nat} {cur : Nat}, fes.length = foffs.length →
      List.zipWith (fun rn (l : Location) => BankEntry.mk (utf8Encode rn) l)
        (fes.map (fun f => f.rel))
        ((fileLocsSpec fes foffs cur).map (fun x => Location.mk x.1 x.2.1 x.2.2)) =
      fileEntriesSpec fes foffs cur := by
  induction fes with
  | nil =>
    intro foffs cur hlen
    cases foffs with
    | nil => rfl
    | cons o os => simp at hlen
  | cons f fs ih =>
    intro foffs cur hlen
    cases foffs with
    | nil => simp at hlen
    | cons o os =>
      rw [List.map_cons, fileLocsSpec, List.map_cons, List.zipWith_cons_cons,
          ih (by simpa using hlen), fileEntriesSpec]

theorem flatMap_payload_drop {fes : List FileEntry}
    (hsz : ∀ f ∈ fes, f.size = f.bytes.length) :
    ∀ j (hj : j < fes.length),
      (fes.flatMap (fun f => f.bytes.take f.size)).drop (sumSizes (fes.take j)) =
        (fes.get ⟨j, hj⟩).bytes ++
          (fes.drop (j + 1)).flatMap (fun f => f.bytes.take f.size) := by
  induction fes with
  | nil => intro j hj; simp at hj
  | cons f fs ih =>
    intro j hj
    have htake : f.bytes.take f.size = f.bytes := by
      rw [hsz f (List.mem_cons_self _ _), List.take_length]
    cases j with
    | zero =>
      rw [List.take_zero]
      show ((f :: fs).flatMap (fun f => f.bytes.take f.size)).drop 0 = _
      rw [List.drop_zero, List.flatMap_cons, htake]
      rfl
    | succ j' =>
      have hj' : j' < fs.length := by simpa using hj
      have hsum : sumSizes ((f :: fs).take (j' + 1)) =
          f.size + sumSizes (fs.take j') := by
        rw [List.take_succ_cons, sumSizes, List.map_cons, List.sum_cons, ← sumSizes]
      have hlen : (f.bytes.take f.size).length = f.size := by
        rw [htake, hsz f (List.mem_cons_self _ _)]
      have hd : ((f.bytes.take f.size) ++
            fs.flatMap (fun f => f.bytes.take f.size)).drop
            (f.size + sumSizes (fs.take j')) =
          (fs.flatMap (fun f => f.bytes.take f.size)).drop (sumSizes (fs.take j')) := by
        have hda := @List.drop_append Nat (f.bytes.take f.size)
          (fs.flatMap (fun f => f.bytes.take f.size)) (sumSizes (fs.take j'))
        rw [hlen] at hda
        exact hda
      rw [hsum, List.flatMap_cons, hd,
          ih (fun g hg => hsz g (List.mem_cons_of_mem _ hg)) j' hj']
      rfl

/-- C1 (counterexample): a tree containing one empty file "a" round-trips
into an entry the Reader classifies as a DIRECTORY (its `data_size` is 0),
so the directory/file classification is not reproduced for empty files. -/
theorem round_trip_counterexample :
    write_bank [] [⟨['a'], 0, []⟩] =
      .ok (FILE_ID_B ++ CORRUPTION_B ++ VERSION_B ++ u64le 1 ++
        (u64le 0 ++ u64le 58 ++ u64le 0) ++ u64le 2 ++ [97, 0]) ∧
    parseBank (FILE_ID_B ++ CORRUPTION_B ++ VERSION_B ++ u64le 1 ++
        (u64le 0 ++ u64le 58 ++ u64le 0) ++ u64le 2 ++ [97, 0]) =
      .ok [⟨[97], ⟨0, 58, 0⟩⟩] ∧
    (BankEntry.mk [97] ⟨0, 58, 0⟩).is_dir = true ∧
    (BankEntry.mk [97] ⟨0, 58, 0⟩).is_file = false := by
  refine ⟨by decide, by decide, by decide, by decide⟩

theorem write_bank_eq {dirs : List (List Char)} {fes : List FileEntry}
    {offs blk : List Nat} {locs : List (Nat × Nat × Nat)} {data : List Nat}
    (hb : buildNameBlockAux (locNames dirs fes) 0 = .ok (offs, blk))
    (hcomp : computeLocs fes ((locNames dirs fes).zip offs)
      (24 + (locNames dirs fes).length * 24 + 8 + blk.length) = .ok locs)
    (hdata : dataRegion fes (locNames dirs fes) = .ok data) :
    write_bank dirs fes = .ok (FILE_ID_B ++ CORRUPTION_B ++ VERSION_B ++
      u64le (locNames dirs fes).length ++ locs.flatMap packLoc ++
      u64le blk.length ++ blk ++ data) := by
  rw [write_bank, hb, except_bind_ok]
  show (do
    let locs2 ← computeLocs fes ((locNames dirs fes).zip offs)
      (24 + (locNames dirs fes).length * 24 + 8 + blk.length)
    let data2 ← dataRegion fes (locNames dirs fes)
    Except.ok (FILE_ID_B ++ CORRUPTION_B ++ VERSION_B ++
      u64le (locNames dirs fes).length ++ locs2.flatMap packLoc ++
      u64le blk.length ++ blk ++ data2)) = _
  rw [hcomp, except_bind_ok, hdata, except_bind_ok]

theorem parseBank_of_parts {bs : List Nat} {es : List BankEntry}
    (hpre : parseEntriesPre bs = .ok es) (hoc : overlapCheck es = .ok ()) :
    parseBank bs = .ok es := by
  rw [parseBank, hpre, except_bind_ok, hoc, except_bind_ok]

theorem parseEntriesPre_eq {N L : Nat} {locsTuple : List (Nat × Nat × Nat)}
    {blk data : List Nat} {es : List BankEntry}
    (hN : N < 18446744073709551616)
    (hL : L < 18446744073709551616)
    (hcount : N = locsTuple.length)
    (hb64 : ∀ x ∈ locsTuple, x.1 < 18446744073709551616 ∧
      x.2.1 < 18446744073709551616 ∧ x.2.2 < 18446744073709551616)
    (hLblk : blk.length = L)
    (hres : resolveAll blk
      (locsTuple.map (fun x => Location.mk x.1 x.2.1 x.2.2)) = .ok es) :
    parseEntriesPre (FILE_ID_B ++ CORRUPTION_B ++ VERSION_B ++ u64le N ++
      locsTuple.flatMap packLoc ++ u64le L ++ blk ++ data) = .ok es := by
  have hshape : FILE_ID_B ++ CORRUPTION_B ++ VERSION_B ++ u64le N ++
      locsTuple.flatMap packLoc ++ u64le L ++ blk ++ data =
      FILE_ID_B ++ (CORRUPTION_B ++ (VERSION_B ++ (u64le N ++
        (locsTuple.flatMap packLoc ++ (u64le L ++ (blk ++ data)))))) := by
    simp [List.append_assoc]
  have e1 : readExact 4 (FILE_ID_B ++ (CORRUPTION_B ++ (VERSION_B ++ (u64le N ++
      (locsTuple.flatMap packLoc ++ (u64le L ++ (blk ++ data))))))) =
      .ok (FILE_ID_B, CORRUPTION_B ++ (VERSION_B ++ (u64le N ++
        (locsTuple.flatMap packLoc ++ (u64le L ++ (blk ++ data)))))) :=
    readExact_append rfl
  have e2 : readExact 4 (CORRUPTION_B ++ (VERSION_B ++ (u64le N ++
      (locsTuple.flatMap packLoc ++ (u64le L ++ (blk ++ data)))))) =
      .ok (CORRUPTION_B, VERSION_B ++ (u64le N ++
        (locsTuple.flatMap packLoc ++ (u64le L ++ (blk ++ data))))) :=
    readExact_append rfl
  have e3 : readExact 8 (VERSION_B ++ (u64le N ++
      (locsTuple.flatMap packLoc ++ (u64le L ++ (blk ++ data))))) =
      .ok (VERSION_B, u64le N ++
        (locsTuple.flatMap packLoc ++ (u64le L ++ (blk ++ data)))) :=
    readExact_append rfl
  have e4 : readU64 (u64le N ++
      (locsTuple.flatMap packLoc ++ (u64le L ++ (blk ++ data)))) =
      .ok (N, locsTuple.flatMap packLoc ++ (u64le L ++ (blk ++ data))) :=
    readU64_append hN
  have e5 : readLocations N
      (locsTuple.flatMap packLoc ++ (u64le L ++ (blk ++ data))) =
      .ok (locsTuple.map (fun x => Location.mk x.1 x.2.1 x.2.2),
        u64le L ++ (blk ++ data)) := by
    rw [hcount]
    exact readLocations_append hb64
  have e6 : readU64 (u64le L ++ (blk ++ data)) = .ok (L, blk ++ data) :=
    readU64_append hL
  have e7 : readExact L (blk ++ data) = .ok (blk, data) :=
    readExact_append hLblk
  rw [hshape]
  simp only [parseEntriesPre, e1, except_bind_ok, e2, e3, e4, e5, e6, e7, hres,
    except_throw, except_pure, ne_eq, not_true_eq_false, if_false, ite_false]

theorem overlapCheck_roundtrip {dirs : List (List Char)} {doffs : List Nat}
    {fes : List FileEntry} {foffs : List Nat} {cur : Nat}
    (hpos : ∀ f ∈ fes, 0 < f.size) :
    overlapCheck (dirEntriesSpec dirs doffs ++ fileEntriesSpec fes foffs cur) = .ok () := by
  have hdfilter : (dirEntriesSpec dirs doffs).filter (fun e => e.is_file) = [] := by
    rw [List.filter_eq_nil_iff]
    intro e he
    rw [dirEntriesSpec] at he
    rcases List.mem_map.mp he with ⟨p, hp, hpe⟩
    subst hpe
    simp [BankEntry.is_file]
  have hffilter : (fileEntriesSpec fes foffs cur).filter (fun e => e.is_file) =
      fileEntriesSpec fes foffs cur := by
    rw [List.filter_eq_self]
    intro e he
    rcases fileEntriesSpec_mem_size e he with ⟨f, hf, hsz⟩
    have := hpos f hf
    simp [BankEntry.is_file, hsz]
    omega
  have hchain := @fileEntriesSpec_chain fes foffs cur
  have hchain1 : (fileEntriesSpec fes foffs cur).Chain'
      (fun a b => a.loc.data_end ≤ b.loc.data_off) :=
    hchain.imp (fun a b h => h.1)
  have hchain2 : (fileEntriesSpec fes foffs cur).Chain'
      (fun a b => leOff a b = true) :=
    hchain.imp (fun a b h => h.2)
  have hpw : (fileEntriesSpec fes foffs cur).Pairwise (fun a b => leOff a b = true) :=
    pairwise_of_chain' (fun a b c h1 h2 => leOff_trans a b c h1 h2) hchain2
  rw [overlapCheck, List.filter_append, hdfilter, hffilter, List.nil_append,
      sortStable_eq_of_pairwise hpw, checkAdj_ok_iff]
  exact hchain1

/-- C1 (amended) — round trip: for every writer input whose paths are
already sanitized (fixed points of `sanitize_bank_rel`) and NUL-free, whose
file paths are distinct, whose payload sources yield exactly the declared
sizes, and whose files are all NONEMPTY (an empty file is emitted with
`data_size = 0` and read back as a directory), reading the container
written by `write_bank` reproduces the same logical entry set in the
writer's table order: the same relative paths (UTF-8 encoded), the
directories as directories, and the files as files with byte-identical
payloads. -/
theorem round_trip {dirs : List (List Char)} {fes : List FileEntry} {out : List Nat}
    (hsd : ∀ d ∈ dirs, sanitize_bank_rel d = .ok d)
    (hnd0 : ∀ d ∈ dirs, ∀ c ∈ d, c.toNat ≠ 0)
    (hsf : ∀ f ∈ fes, sanitize_bank_rel f.rel = .ok f.rel)
    (hnf0 : ∀ f ∈ fes, ∀ c ∈ f.rel, c.toNat ≠ 0)
    (hsize : ∀ f ∈ fes, f.size = f.bytes.length)
    (hpos : ∀ f ∈ fes, 0 < f.size)
    (hnd : (fes.map (fun f : FileEntry => f.rel)).Nodup)
    (hw : write_bank dirs fes = .ok out)
    (hbound : out.length < 18446744073709551616) :
    ∃ es, parseBank out = .ok es ∧
      es.length = dirs.length + fes.length ∧
      (∀ i (hi : i < dirs.length), ∃ noff,
        es[i]? = some ⟨utf8Encode (dirs.get ⟨i, hi⟩), ⟨noff, 0, 0⟩⟩) ∧
      (∀ j (hj : j < fes.length), ∃ e, es[dirs.length + j]? = some e ∧
        e.name_bytes = utf8Encode ((fes.get ⟨j, hj⟩).rel) ∧
        e.is_file = true ∧
        readFileBytes out e = .ok ((fes.get ⟨j, hj⟩).bytes)) := by
  have hpaths : (locNames dirs fes).map (fun x => x.1) =
      dirs ++ fes.map (fun f : FileEntry => f.rel) := by
    rw [locNames, List.map_append, List.map_map, List.map_map]
    congr 1
    exact List.map_id dirs
  have hsall : ∀ x ∈ locNames dirs fes, sanitize_bank_rel x.1 = .ok x.1 := by
    intro x hx
    rw [locNames] at hx
    rcases List.mem_append.mp hx with h | h
    · rcases List.mem_map.mp h with ⟨d, hd, hdx⟩
      subst hdx
      exact hsd d hd
    · rcases List.mem_map.mp h with ⟨f, hf, hfx⟩
      subst hfx
      exact hsf f hf
  have hb : buildNameBlockAux (locNames dirs fes) 0 =
      .ok (offsOf 0 (dirs ++ fes.map (fun f : FileEntry => f.rel)),
           blkOf (dirs ++ fes.map (fun f : FileEntry => f.rel))) := by
    rw [buildNameBlockAux_fixed hsall, hpaths]
  have hoffs : offsOf 0 (dirs ++ fes.map (fun f : FileEntry => f.rel)) =
      offsOf 0 dirs ++
        offsOf (blkOf dirs).length (fes.map (fun f : FileEntry => f.rel)) := by
    rw [offsOf_append]
    congr 2
    omega
  have hdolen : (offsOf 0 dirs).length = dirs.length := offsOf_length 0 dirs
  have hfolen : fes.length =
      (offsOf (blkOf dirs).length (fes.map (fun f : FileEntry => f.rel))).length := by
    rw [offsOf_length, List.length_map]
  have hsub : ∀ f ∈ fes, lookupRel fes f.rel = some f :=
    fun f hf => lookupRel_nodup hnd hf
  have hzip : (locNames dirs fes).zip
      (offsOf 0 (dirs ++ fes.map (fun f : FileEntry => f.rel))) =
      (dirs.map (fun d => (d, true))).zip (offsOf 0 dirs) ++
      (fes.map (fun f : FileEntry => (f.rel, false))).zip
        (offsOf (blkOf dirs).length (fes.map (fun f : FileEntry => f.rel))) := by
    rw [hoffs, locNames]
    rw [List.zip_append (by rw [List.length_map, hdolen])]
  have hcomp : computeLocs fes ((locNames dirs fes).zip
      (offsOf 0 (dirs ++ fes.map (fun f : FileEntry => f.rel))))
      (24 + (locNames dirs fes).length * 24 + 8 +
        (blkOf (dirs ++ fes.map (fun f : FileEntry => f.rel))).length) =
      .ok ((offsOf 0 dirs).map (fun o => (o, 0, 0)) ++
        fileLocsSpec fes
          (offsOf (blkOf dirs).length (fes.map (fun f : FileEntry => f.rel)))
          (24 + (locNames dirs fes).length * 24 + 8 +
            (blkOf (dirs ++ fes.map (fun f : FileEntry => f.rel))).length)) := by
    rw [hzip]
    exact computeLocs_dirs hdolen.symm (computeLocs_files_nodup hsub hfolen)
  have hszle : ∀ f ∈ fes, f.size ≤ f.bytes.length := by
    intro f hf
    rw [hsize f hf]
  have hdata : dataRegion fes (locNames dirs fes) =
      .ok (fes.flatMap (fun f : FileEntry => f.bytes.take f.size)) := by
    rw [locNames, dataRegion_dirs]
    exact dataRegion_files_nodup hsub hszle
  have hwb := write_bank_eq hb hcomp hdata
  have hout : out = FILE_ID_B ++ CORRUPTION_B ++ VERSION_B ++
      u64le (locNames dirs fes).length ++
      ((offsOf 0 dirs).map (fun o => ((o, 0, 0) : Nat × Nat × Nat)) ++
        fileLocsSpec fes
          (offsOf (blkOf dirs).length (fes.map (fun f : FileEntry => f.rel)))
          (24 + (locNames dirs fes).length * 24 + 8 +
            (blkOf (dirs ++ fes.map (fun f : FileEntry => f.rel))).length)).flatMap
        packLoc ++
      u64le (blkOf (dirs ++ fes.map (fun f : FileEntry => f.rel))).length ++
      blkOf (dirs ++ fes.map (fun f : FileEntry => f.rel)) ++
      fes.flatMap (fun f : FileEntry => f.bytes.take f.size) := by
    have h := hw.symm.trans hwb
    exact Except.ok.inj h
  have hcount : (locNames dirs fes).length =
      ((offsOf 0 dirs).map (fun o => ((o, 0, 0) : Nat × Nat × Nat)) ++
        fileLocsSpec fes
          (offsOf (blkOf dirs).length (fes.map (fun f : FileEntry => f.rel)))
          (24 + (locNames dirs fes).length * 24 + 8 +
            (blkOf (dirs ++ fes.map (fun f : FileEntry => f.rel))).length)).length := by
    rw [locNames_length, List.length_append, List.length_map, hdolen,
        fileLocsSpec_length hfolen]
  have hdatalen : (fes.flatMap (fun f : FileEntry => f.bytes.take f.size)).length =
      sumSizes fes := flatMap_take_length hszle
  have hNlen := locNames_length dirs fes
  have hlen_out : out.length = 32 + 24 * (dirs.length + fes.length) +
      (blkOf (dirs ++ fes.map (fun f : FileEntry => f.rel))).length +
      sumSizes fes := by
    rw [hout]
    simp only [List.length_append]
    rw [flatMap_packLoc_length, List.length_append, List.length_map, hdolen,
        fileLocsSpec_length hfolen, hdatalen]
    simp only [FILE_ID_B, CORRUPTION_B, VERSION_B, List.length_cons, List.length_nil,
      u64le_length]
    omega
  have hNlt : (locNames dirs fes).length < 18446744073709551616 := by
    rw [hNlen]
    omega
  have hLlt : (blkOf (dirs ++ fes.map (fun f : FileEntry => f.rel))).length <
      18446744073709551616 := by
    omega
  have hLsplit : (blkOf (dirs ++ fes.map (fun f : FileEntry => f.rel))).length =
      (blkOf dirs).length +
        (blkOf (fes.map (fun f : FileEntry => f.rel))).length := by
    rw [blkOf_append, List.length_append]
  have hb64 : ∀ x ∈ (offsOf 0 dirs).map (fun o => ((o, 0, 0) : Nat × Nat × Nat)) ++
      fileLocsSpec fes
        (offsOf (blkOf dirs).length (fes.map (fun f : FileEntry => f.rel)))
        (24 + (locNames dirs fes).length * 24 + 8 +
          (blkOf (dirs ++ fes.map (fun f : FileEntry => f.rel))).length),
      x.1 < 18446744073709551616 ∧ x.2.1 < 18446744073709551616 ∧
        x.2.2 < 18446744073709551616 := by
    intro x hx
    rcases List.mem_append.mp hx with h | h
    · rcases List.mem_map.mp h with ⟨o, ho, hox⟩
      subst hox
      have h1 := offsOf_lt_blkOf o ho
      refine ⟨?_, ?_, ?_⟩
      · show o < 18446744073709551616
        omega
      · show (0 : Nat) < 18446744073709551616
        omega
      · show (0 : Nat) < 18446744073709551616
        omega
    · rcases fileLocsSpec_bounds x h with ⟨h1, h2, h3⟩
      have h4 := offsOf_lt_blkOf x.1 h1
      refine ⟨by omega, by omega, by omega⟩
  have hnul : ∀ rn ∈ dirs ++ fes.map (fun f : FileEntry => f.rel),
      ∀ c ∈ rn, c.toNat ≠ 0 := by
    intro rn hrn
    rcases List.mem_append.mp hrn with h | h
    · exact hnd0 rn h
    · rcases List.mem_map.mp h with ⟨f, hf, hfx⟩
      subst hfx
      exact hnf0 f hf
  have halign : (((offsOf 0 dirs).map (fun o => ((o, 0, 0) : Nat × Nat × Nat)) ++
      fileLocsSpec fes
        (offsOf (blkOf dirs).length (fes.map (fun f : FileEntry => f.rel)))
        (24 + (locNames dirs fes).length * 24 + 8 +
          (blkOf (dirs ++ fes.map (fun f : FileEntry => f.rel))).length)).map
        (fun x => Location.mk x.1 x.2.1 x.2.2)).map Location.name_off =
      offsOf ([] : List Nat).length (dirs ++ fes.map (fun f : FileEntry => f.rel)) := by
    rw [List.map_map]
    have h1 : (Location.name_off ∘ fun x : Nat × Nat × Nat =>
        Location.mk x.1 x.2.1 x.2.2) = fun x : Nat × Nat × Nat => x.1 := by
      funext x
      rfl
    rw [h1, List.map_append, List.map_map]
    have h2 : ((fun x : Nat × Nat × Nat => x.1) ∘
        fun o : Nat => ((o, 0, 0) : Nat × Nat × Nat)) = id := by
      funext o
      rfl
    rw [h2, fileLocsSpec_offs hfolen, List.map_id (offsOf 0 dirs)]
    exact hoffs.symm
  have hres := @resolveAll_blkOf [] _ _ hnul halign
  rw [List.nil_append] at hres
  have heq_es : List.zipWith (fun rn l => BankEntry.mk (utf8Encode rn) l)
      (dirs ++ fes.map (fun f : FileEntry => f.rel))
      ((((offsOf 0 dirs).map (fun o => ((o, 0, 0) : Nat × Nat × Nat)) ++
        fileLocsSpec fes
          (offsOf (blkOf dirs).length (fes.map (fun f : FileEntry => f.rel)))
          (24 + (locNames dirs fes).length * 24 + 8 +
            (blkOf (dirs ++ fes.map (fun f : FileEntry => f.rel))).length)).map
        (fun x => Location.mk x.1 x.2.1 x.2.2))) =
      dirEntriesSpec dirs (offsOf 0 dirs) ++
      fileEntriesSpec fes
        (offsOf (blkOf dirs).length (fes.map (fun f : FileEntry => f.rel)))
        (24 + (locNames dirs fes).length * 24 + 8 +
          (blkOf (dirs ++ fes.map (fun f : FileEntry => f.rel))).length) := by
    rw [List.map_append]
    rw [List.zipWith_append _ _ _ _ _
      (by rw [List.length_map, List.length_map, hdolen])]
    rw [zipWith_dirs_spec, zipWith_files_spec hfolen]
  rw [heq_es] at hres
  have hpre := @parseEntriesPre_eq (locNames dirs fes).length
    (blkOf (dirs ++ fes.map (fun f : FileEntry => f.rel))).length
    ((offsOf 0 dirs).map (fun o => ((o, 0, 0) : Nat × Nat × Nat)) ++
      fileLocsSpec fes
        (offsOf (blkOf dirs).length (fes.map (fun f : FileEntry => f.rel)))
        (24 + (locNames dirs fes).length * 24 + 8 +
          (blkOf (dirs ++ fes.map (fun f : FileEntry => f.rel))).length))
    (blkOf (dirs ++ fes.map (fun f : FileEntry => f.rel)))
    (fes.flatMap (fun f : FileEntry => f.bytes.take f.size))
    (dirEntriesSpec dirs (offsOf 0 dirs) ++
      fileEntriesSpec fes
        (offsOf (blkOf dirs).length (fes.map (fun f : FileEntry => f.rel)))
        (24 + (locNames dirs fes).length * 24 + 8 +
          (blkOf (dirs ++ fes.map (fun f : FileEntry => f.rel))).length))
    hNlt hLlt hcount hb64 rfl hres
  have hoc := @overlapCheck_roundtrip dirs (offsOf 0 dirs) fes
    (offsOf (blkOf dirs).length (fes.map (fun f : FileEntry => f.rel)))
    (24 + (locNames dirs fes).length * 24 + 8 +
      (blkOf (dirs ++ fes.map (fun f : FileEntry => f.rel))).length) hpos
  have hparse : parseBank out =
      .ok (dirEntriesSpec dirs (offsOf 0 dirs) ++
        fileEntriesSpec fes
          (offsOf (blkOf dirs).length (fes.map (fun f : FileEntry => f.rel)))
          (24 + (locNames dirs fes).length * 24 + 8 +
            (blkOf (dirs ++ fes.map (fun f : FileEntry => f.rel))).length)) := by
    rw [hout]
    exact parseBank_of_parts hpre hoc
  have hdslen : (dirEntriesSpec dirs (offsOf 0 dirs)).length = dirs.length :=
    dirEntriesSpec_length hdolen
  have hfslen : (fileEntriesSpec fes
      (offsOf (blkOf dirs).length (fes.map (fun f : FileEntry => f.rel)))
      (24 + (locNames dirs fes).length * 24 + 8 +
        (blkOf (dirs ++ fes.map (fun f : FileEntry => f.rel))).length)).length =
      fes.length := fileEntriesSpec_length hfolen
  have hprelen : (FILE_ID_B ++ CORRUPTION_B ++ VERSION_B ++
      u64le (locNames dirs fes).length ++
      ((offsOf 0 dirs).map (fun o => ((o, 0, 0) : Nat × Nat × Nat)) ++
        fileLocsSpec fes
          (offsOf (blkOf dirs).length (fes.map (fun f : FileEntry => f.rel)))
          (24 + (locNames dirs fes).length * 24 + 8 +
            (blkOf (dirs ++ fes.map (fun f : FileEntry => f.rel))).length)).flatMap
        packLoc ++
      u64le (blkOf (dirs ++ fes.map (fun f : FileEntry => f.rel))).length ++
      blkOf (dirs ++ fes.map (fun f : FileEntry => f.rel))).length =
      24 + (locNames dirs fes).length * 24 + 8 +
        (blkOf (dirs ++ fes.map (fun f : FileEntry => f.rel))).length := by
    simp only [List.length_append]
    rw [flatMap_packLoc_length, List.length_append, List.length_map, hdolen,
        fileLocsSpec_length hfolen]
    simp only [FILE_ID_B, CORRUPTION_B, VERSION_B, List.length_cons, List.length_nil,
      u64le_length]
    rw [hNlen]
    omega
  refine ⟨_, hparse, ?_, ?_, ?_⟩
  · rw [List.length_append, hdslen, hfslen]
  · intro i hi
    rcases dirEntriesSpec_get (offsOf 0 dirs) i hi hdolen with ⟨noff, hn⟩
    refine ⟨noff, ?_⟩
    rw [List.getElem?_append, if_pos (by omega)]
    exact hn
  · intro j hj
    rcases fileEntriesSpec_get j hj hfolen with ⟨noff, hn⟩
    refine ⟨BankEntry.mk (utf8Encode ((fes.get ⟨j, hj⟩).rel))
      ⟨noff, 24 + (locNames dirs fes).length * 24 + 8 +
        (blkOf (dirs ++ fes.map (fun f : FileEntry => f.rel))).length +
        sumSizes (fes.take j), (fes.get ⟨j, hj⟩).size⟩, ?_, ?_, ?_, ?_⟩
    · rw [List.getElem?_append_right (by omega)]
      have harith : dirs.length + j -
          (dirEntriesSpec dirs (offsOf 0 dirs)).length = j := by
        omega
      rw [harith]
      exact hn
    · rfl
    · have := hpos (fes.get ⟨j, hj⟩) (List.get_mem fes j hj)
      simp only [BankEntry.is_file, bne_iff_ne]
      omega
    · have hposj := hpos (fes.get ⟨j, hj⟩) (List.get_mem fes j hj)
      have hisf : (BankEntry.mk (utf8Encode ((fes.get ⟨j, hj⟩).rel))
          ⟨noff, 24 + (locNames dirs fes).length * 24 + 8 +
            (blkOf (dirs ++ fes.map (fun f : FileEntry => f.rel))).length +
            sumSizes (fes.take j), (fes.get ⟨j, hj⟩).size⟩).is_file = true := by
        simp only [BankEntry.is_file, bne_iff_ne]
        omega
      rw [readFileBytes, if_pos hisf]
      have hdrop : out.drop (24 + (locNames dirs fes).length * 24 + 8 +
          (blkOf (dirs ++ fes.map (fun f : FileEntry => f.rel))).length +
          sumSizes (fes.take j)) =
          (fes.get ⟨j, hj⟩).bytes ++
            (fes.drop (j + 1)).flatMap (fun f : FileEntry => f.bytes.take f.size) := by
        rw [hout]
        have hsplit2 : 24 + (locNames dirs fes).length * 24 + 8 +
            (blkOf (dirs ++ fes.map (fun f : FileEntry => f.rel))).length +
            sumSizes (fes.take j) =
            (FILE_ID_B ++ CORRUPTION_B ++ VERSION_B ++
              u64le (locNames dirs fes).length ++
              ((offsOf 0 dirs).map (fun o => ((o, 0, 0) : Nat × Nat × Nat)) ++
                fileLocsSpec fes
                  (offsOf (blkOf dirs).length
                    (fes.map (fun f : FileEntry => f.rel)))
                  (24 + (locNames dirs fes).length * 24 + 8 +
                    (blkOf (dirs ++
                      fes.map (fun f : FileEntry => f.rel))).length)).flatMap
                packLoc ++
              u64le (blkOf (dirs ++ fes.map (fun f : FileEntry => f.rel))).length ++
              blkOf (dirs ++ fes.map (fun f : FileEntry => f.rel))).length +
            sumSizes (fes.take j) := by
          rw [hprelen]
        rw [hsplit2, List.drop_append]
        exact flatMap_payload_drop hsize j hj
      show (match readExact (fes.get ⟨j, hj⟩).size
          (out.drop (24 + (locNames dirs fes).length * 24 + 8 +
            (blkOf (dirs ++ fes.map (fun f : FileEntry => f.rel))).length +
            sumSizes (fes.take j))) with
        | .ok p => Except.ok p.1
        | .error er => Except.error er) = .ok ((fes.get ⟨j, hj⟩).bytes)
      rw [hdrop, readExact_append (hsize (fes.get ⟨j, hj⟩) (List.get_mem fes j hj)).symm]

/-- Witness for `round_trip`: a concrete tree with one directory `a` and one
file `b` holding byte `7`; all hypotheses hold by computation and the round
trip reproduces both entries. -/
theorem round_trip_witness :
    (∀ d ∈ [['a']], sanitize_bank_rel d = .ok d) ∧
    (∀ d ∈ [['a']], ∀ c ∈ d, c.toNat ≠ 0) ∧
    (∀ f ∈ [FileEntry.mk ['b'] 1 [7]], sanitize_bank_rel f.rel = .ok f.rel) ∧
    (∀ f ∈ [FileEntry.mk ['b'] 1 [7]], ∀ c ∈ f.rel, c.toNat ≠ 0) ∧
    (∀ f ∈ [FileEntry.mk ['b'] 1 [7]], f.size = f.bytes.length) ∧
    (∀ f ∈ [FileEntry.mk ['b'] 1 [7]], 0 < f.size) ∧
    (([FileEntry.mk ['b'] 1 [7]].map (fun f : FileEntry => f.rel)).Nodup) ∧
    write_bank [['a']] [FileEntry.mk ['b'] 1 [7]] =
      .ok [137, 107, 72, 115, 13, 10, 26, 10, 66, 97, 110, 107, 48, 48, 48, 49,
        2, 0, 0, 0, 0, 0, 0, 0, 0, 0, 0, 0, 0, 0, 0, 0, 0, 0, 0, 0, 0, 0, 0, 0,
        0, 0, 0, 0, 0, 0, 0, 0, 2, 0, 0, 0, 0, 0, 0, 0, 84, 0, 0, 0, 0, 0, 0, 0,
        1, 0, 0, 0, 0, 0, 0, 0, 4, 0, 0, 0, 0, 0, 0, 0, 97, 0, 98, 0, 7] ∧
    ([137, 107, 72, 115, 13, 10, 26, 10, 66, 97, 110, 107, 48, 48, 48, 49,
        2, 0, 0, 0, 0, 0, 0, 0, 0, 0, 0, 0, 0, 0, 0, 0, 0, 0, 0, 0, 0, 0, 0, 0,
        0, 0, 0, 0, 0, 0, 0, 0, 2, 0, 0, 0, 0, 0, 0, 0, 84, 0, 0, 0, 0, 0, 0, 0,
        1, 0, 0, 0, 0, 0, 0, 0, 4, 0, 0, 0, 0, 0, 0, 0, 97, 0, 98, 0, 7] :
      List Nat).length < 18446744073709551616 ∧
    (∃ es, parseBank
        [137, 107, 72, 115, 13, 10, 26, 10, 66, 97, 110, 107, 48, 48, 48, 49,
          2, 0, 0, 0, 0, 0, 0, 0, 0, 0, 0, 0, 0, 0, 0, 0, 0, 0, 0, 0, 0, 0, 0, 0,
          0, 0, 0, 0, 0, 0, 0, 0, 2, 0, 0, 0, 0, 0, 0, 0, 84, 0, 0, 0, 0, 0, 0, 0,
          1, 0, 0, 0, 0, 0, 0, 0, 4, 0, 0, 0, 0, 0, 0, 0, 97, 0, 98, 0, 7] = .ok es ∧
      es.length = [['a']].length + [FileEntry.mk ['b'] 1 [7]].length ∧
      (∀ i (hi : i < [['a']].length), ∃ noff,
        es[i]? = some ⟨utf8Encode ([['a']].get ⟨i, hi⟩), ⟨noff, 0, 0⟩⟩) ∧
      (∀ j (hj : j < [FileEntry.mk ['b'] 1 [7]].length), ∃ e,
        es[[['a']].length + j]? = some e ∧
        e.name_bytes = utf8Encode (([FileEntry.mk ['b'] 1 [7]].get ⟨j, hj⟩).rel) ∧
        e.is_file = true ∧
        readFileBytes
          [137, 107, 72, 115, 13, 10, 26, 10, 66, 97, 110, 107, 48, 48, 48, 49,
            2, 0, 0, 0, 0, 0, 0, 0, 0, 0, 0, 0, 0, 0, 0, 0, 0, 0, 0, 0, 0, 0, 0, 0,
            0, 0, 0, 0, 0, 0, 0, 0, 2, 0, 0, 0, 0, 0, 0, 0, 84, 0, 0, 0, 0, 0, 0, 0,
            1, 0, 0, 0, 0, 0, 0, 0, 4, 0, 0, 0, 0, 0, 0, 0, 97, 0, 98, 0, 7] e =
          .ok (([FileEntry.mk ['b'] 1 [7]].get ⟨j, hj⟩).bytes))) :=
  ⟨by decide, by decide, by decide, by decide, by decide, by decide, by decide,
   by decide, by decide,
   round_trip (by decide) (by decide) (by decide) (by decide) (by decide)
     (by decide) (by decide) (by decide) (by decide)⟩
